import Mathlib

/-
Verification development for the ai-proposal-agent repository.

The definitions below are a shallow embedding of:
  * app.py            : _fix_inline_table, _dedupe_headings, _normalize_section,
                        the "ensure one heading at top" composition step and the
                        gen_btn composition of markdown_full;
  * validators.py     : validate_inputs;
  * ai_proposal_agent/chains.py
                      : LLMClient.generate (retry loop), SummarizationChain.run,
                        QualityAuditChain.run, MainProposalChain.generate,
                        MainProposalChain.regenerate_section,
                        MainProposalChain._ensure_json.

Modelling conventions:
  * Python strings are modelled as Lean String, with the character-level work
    done on List Char (String.data) so that every function is structurally
    recursive and kernel-evaluable.
  * str.strip / lstrip are modelled with Char.isWhitespace (ASCII whitespace);
    str.splitlines is modelled as splitting on the newline character with
    Python's trailing-newline convention (pySplitlines below).
  * json.loads is an external library call; it is modelled as an opaque
    parameter parse : String -> Option JVal (none = parse exception).
  * The LLM completion boundary is modelled as a script: a list of outcomes,
    one per LLMClient.generate call, consumed in order.  An entry
    Except.error e models the call raising (RuntimeError after retries);
    Except.ok s models it returning the text s.
  * Python exceptions are PyErr; raising is Except.error.
-/

/-! ## Character-list utilities (Python str semantics) -/

def lstripL (cs : List Char) : List Char := cs.dropWhile Char.isWhitespace

def rstripL (cs : List Char) : List Char :=
  ((cs.reverse).dropWhile Char.isWhitespace).reverse

def trimL (cs : List Char) : List Char := rstripL (lstripL cs)

def toLowerL (cs : List Char) : List Char := cs.map Char.toLower

/-- Python's `.strip().lower()` applied to a string. -/
def normKey (cs : List Char) : List Char := toLowerL (trimL cs)

/-- Split a character list at every occurrence of a separator character
(all fragments kept, like Python `str.split(sep)`). -/
def splitOnC (sep : Char) : List Char → List (List Char)
  | [] => [[]]
  | c :: rest =>
    if c = sep then [] :: splitOnC sep rest
    else
      match splitOnC sep rest with
      | h :: t => (c :: h) :: t
      | [] => [[c]]

/-- Split a character list at newline characters (all fragments kept). -/
def splitNl : List Char → List (List Char) := splitOnC '\n'

/-- Python `str.splitlines()` restricted to newline separators:
the empty string gives no lines, and a trailing newline does not
produce a final empty line. -/
def pySplitlines (cs : List Char) : List (List Char) :=
  if cs = [] then []
  else if cs.getLast? = some '\n' then (splitNl cs).dropLast
  else splitNl cs

/-- Python `sep.join(parts)`. -/
def joinWith (sep : List Char) : List (List Char) → List Char
  | [] => []
  | [l] => l
  | l :: ls => l ++ sep ++ joinWith sep ls

def joinNl (ls : List (List Char)) : List Char := joinWith ['\n'] ls

/-- Boolean string-starts-with on character lists. -/
def leadsWith : List Char → List Char → Bool
  | [], _ => true
  | _ :: _, [] => false
  | p :: ps, c :: cs => p = c && leadsWith ps cs

/-- Python `pat in s` (substring containment). -/
def hasSub (pat : List Char) : List Char → Bool
  | [] => leadsWith pat []
  | c :: rest => leadsWith pat (c :: rest) || hasSub pat rest

/-- Fuelled replace-all; fuel is the length of the subject, which suffices
because each step consumes at least one character. -/
def replaceFuel (pat rep : List Char) : Nat → List Char → List Char
  | 0, cs => cs
  | _ + 1, [] => []
  | n + 1, c :: rest =>
    if leadsWith pat (c :: rest) ∧ pat ≠ [] then
      rep ++ replaceFuel pat rep n ((c :: rest).drop pat.length)
    else
      c :: replaceFuel pat rep n rest

/-- Python `s.replace(pat, rep)` (all occurrences, left to right). -/
def replaceAllL (pat rep cs : List Char) : List Char :=
  replaceFuel pat rep cs.length cs

/-! ## Markdown normalizer (app.py) -/

/-- Does `re.match(r"^#{1,6}\s+", ln)` succeed?  One to six leading hash
marks followed by at least one whitespace character. -/
def isHeadingL (ln : List Char) : Bool :=
  let hs := ln.takeWhile (fun c => c = '#')
  1 ≤ hs.length && hs.length ≤ 6 &&
    (match ln.drop hs.length with
     | c :: _ => c.isWhitespace
     | [] => false)

/-- `re.sub(r"^#{1,6}\s+", "", ln)`: when the pattern matches, drop the
hash marks and all the whitespace that follows them; otherwise leave the
line unchanged. -/
def headingStripL (ln : List Char) : List Char :=
  if isHeadingL ln then (ln.dropWhile (fun c => c = '#')).dropWhile Char.isWhitespace
  else ln

/-- One table row, `f"| {a} | {b} |"`. -/
def mkRow (a b : List Char) : List Char :=
  "| ".data ++ a ++ " | ".data ++ b ++ " |".data

/-- The while-loop of `_fix_inline_table` that pairs remaining tokens
two at a time (a trailing odd token is dropped). -/
def pairUp : List (List Char) → List (List Char × List Char)
  | a :: b :: rest => (a, b) :: pairUp rest
  | _ => []

/-- `set(tokens[idx]).issubset({'-'})`: every character is a dash. -/
def dashOnly (t : List Char) : Bool := t.all (fun c => c = '-')

/-- Skipping the separator pair: with `idx = 2`, the code checks
`idx + 1 < len(tokens)` (i.e. at least two tokens remain after the header)
and that the first of them is dash-only, and then skips two tokens. -/
def sepSkip (rest : List (List Char)) : List (List Char) :=
  match rest with
  | r0 :: _ :: _ => if dashOnly r0 then rest.drop 2 else rest
  | _ => rest

/-- The pipe-token list of `_fix_inline_table`:
`[t.strip() for t in s.split('|') if t.strip()]`. -/
def tokensOf (s : List Char) : List (List Char) :=
  ((splitOnC '|' s).map trimL).filter (fun t => t ≠ [])

/-- `_fix_inline_table` from app.py. -/
def fixInlineTable (body : List Char) : List Char :=
  if ¬ body.contains '|' ∨ (body.contains '\n' ∧ 2 < body.count '\n') then body
  else
    let s := trimL body
    if 8 ≤ s.count '|' ∧ hasSub "Milestone".data s ∧ hasSub "Date".data s then
      match tokensOf s with
      | t0 :: t1 :: rest =>
        if leadsWith "milestone".data (toLowerL t0) then
          joinNl (mkRow t0 t1 :: mkRow "---".data "---".data ::
                  (pairUp (sepSkip rest)).map (fun p => mkRow p.1 p.2))
        else body
      | _ => body
    else body

/-- The loop body of `_dedupe_headings`: `prev` is the text of the last
heading that was kept (`prev_head`), `tn` the normalised section title. -/
def dedupeLoop (tn : List Char) : Option (List Char) → List (List Char) → List (List Char)
  | _, [] => []
  | prev, ln :: rest =>
    if isHeadingL ln then
      let htext := normKey (headingStripL ln)
      match prev with
      | some p =>
        if htext = p then dedupeLoop tn prev rest
        else ln :: dedupeLoop tn (some htext) rest
      | none => ln :: dedupeLoop tn (some htext) rest
    else
      let plain := normKey ln
      if plain ≠ [] ∧ (prev = some plain ∨ plain = tn) then dedupeLoop tn prev rest
      else ln :: dedupeLoop tn prev rest

/-- `_dedupe_headings` from app.py. -/
def dedupeHeadingsL (title body : List Char) : List Char :=
  trimL (joinNl (dedupeLoop (normKey title) none (pySplitlines body)))

/-- `_normalize_section` from app.py. -/
def normalizeSectionL (title body : List Char) : List Char :=
  let b := lstripL body
  let b1 :=
    match pySplitlines b with
    | f :: restLines =>
      if normKey (headingStripL f) = normKey title then joinNl restLines else b
    | [] => b
  let b2 := dedupeHeadingsL title b1
  let b3 := fixInlineTable b2
  trimL b3

def normalizeSection (title body : String) : String :=
  String.mk (normalizeSectionL title.data body.data)

/-- The correct first-line heading test used by the Regenerate-Section and
Load handlers in app.py (`re.match(r"^#{1,6}\s+", first_line[0])`). -/
def matchRealHeading (f : List Char) : Bool := isHeadingL f

/-- The test actually written in the gen_btn handler and the editor loop:
`re.match(r"^#{1,6}\\s+", first_line[0])` inside a raw string, i.e. one to
six hash marks followed by a literal backslash and at least one letter s. -/
def matchBuggyHeading (f : List Char) : Bool :=
  let hs := f.takeWhile (fun c => c = '#')
  1 ≤ hs.length && hs.length ≤ 6 &&
    (match f.drop hs.length with
     | c1 :: c2 :: _ => c1 = '\\' && c2 = 's'
     | _ => false)

/-- The "ensure one heading at top if missing" step that follows every
normalisation in app.py, parametrised by the first-line test used. -/
def ensureHeadingWith (check : List Char → Bool) (title b : List Char) : List Char :=
  match (pySplitlines (lstripL b)).take 1 with
  | [f] => if check f then b else "# ".data ++ title ++ "\n\n".data ++ b
  | _ => "# ".data ++ title ++ "\n\n".data ++ b

/-- One composed block of the gen_btn handler / editor loop (which use the
buggy heading test). -/
def composeBlock (title body : String) : List Char :=
  ensureHeadingWith matchBuggyHeading title.data (normalizeSectionL title.data body.data)

/-- `md_full` of the gen_btn handler: join the normalised sections in the
insertion order of the sections mapping returned by the completion. -/
def genBtnMarkdownFull (secs : List (String × String)) : List Char :=
  joinWith "\n\n".data (secs.map (fun p => composeBlock p.1 p.2))

/-- The gen_btn handler stores the completion's sections mapping as-is and
derives markdown_full from it. -/
def genBtnUpdate (secs : List (String × String)) :
    List (String × String) × List Char :=
  (secs, genBtnMarkdownFull secs)

/-! ## validators.py -/

/-- A Python dict of strings, as an insertion-ordered association list. -/
abbrev Ctx := List (String × String)

def requiredFields : List String :=
  ["company_name", "client_name", "project_title", "goals", "budget",
   "timeline", "brand_tone"]

/-- Truthiness of `data.get(k)` for a string-valued dict. -/
def strTruthy : Option String → Bool
  | some s => s ≠ ""
  | none => false

/-- `validate_inputs` from validators.py.  The budget "tbd"/"unknown" branch
in the source only executes `pass` and is omitted. -/
def validateInputs (data : Ctx) : Bool × List String :=
  let errs1 := requiredFields.foldl
    (fun acc k =>
      if strTruthy (List.lookup k data) then acc
      else acc ++ ["Missing required field: " ++ k]) []
  let errs2 :=
    match List.lookup "timeline" data with
    | some t => if t ≠ "" ∧ t.length < 3 then ["Timeline appears too short."] else []
    | none => []
  let errs := errs1 ++ errs2
  (errs = [], errs)

/-! ## Chains (ai_proposal_agent/chains.py) -/

/-- A JSON value as returned by `json.loads`. -/
inductive JVal where
  | jnull : JVal
  | jbool : Bool → JVal
  | jnum : Int → JVal
  | jstr : String → JVal
  | jarr : List JVal → JVal
  | jobj : List (String × JVal) → JVal

/-- Python exceptions that appear in the embedded code paths. -/
inductive PyErr where
  | completionFailed : String → PyErr   -- RuntimeError raised by LLMClient.generate
  | jsonError : PyErr                   -- json.JSONDecodeError
  | keyError : String → PyErr           -- str.format / template missing key
deriving DecidableEq

/-- Outcomes of successive `LLMClient.generate` calls, consumed in order. -/
abbrev Script := List (Except PyErr String)

/-- Consume the outcome of one `LLMClient.generate` call. -/
def takeCall : Script → Except PyErr String × Script
  | [] => (Except.error (PyErr.completionFailed "script exhausted"), [])
  | r :: rest => (r, rest)

/-- The retry loop of `LLMClient.generate`: `attempt i` is the outcome of the
i-th call to the underlying completion capability; after `retries` failed
attempts a RuntimeError is raised. -/
def llmGenerate (attempt : Nat → Except String String) : Nat → Nat → Except PyErr String
  | 0, _ => Except.error (PyErr.completionFailed "LLM generation failed after retries")
  | k + 1, i =>
    match attempt i with
    | Except.ok s => Except.ok s
    | Except.error _ => llmGenerate attempt k (i + 1)

/-- Python truthiness of a JSON value (`not data.get("sections")`). -/
def truthy : JVal → Bool
  | JVal.jnull => false
  | JVal.jbool b => b
  | JVal.jnum n => n ≠ 0
  | JVal.jstr s => s ≠ ""
  | JVal.jarr l => ¬ l.isEmpty
  | JVal.jobj f => ¬ f.isEmpty

/-- `dict.setdefault(k, v)`: appends the key at the end when absent. -/
def setdefaultF (fs : List (String × JVal)) (k : String) (v : JVal) :
    List (String × JVal) :=
  match List.lookup k fs with
  | some _ => fs
  | none => fs ++ [(k, v)]

/-- A prompt template: literal pieces and named placeholders, as used by
`str.format(**ctx)` / `PromptTemplate.format(**ctx)`. -/
inductive TPart where
  | lit : String → TPart
  | hole : String → TPart
deriving DecidableEq

/-- Render a template against a context; the first placeholder with no
context entry raises `KeyError` (the spec's MissingContextKey). -/
def renderParts (ctx : Ctx) : List TPart → Except PyErr String
  | [] => Except.ok ""
  | TPart.lit s :: rest => (renderParts ctx rest).map (fun r => s ++ r)
  | TPart.hole k :: rest =>
    match List.lookup k ctx with
    | some v => (renderParts ctx rest).map (fun r => v ++ r)
    | none => Except.error (PyErr.keyError k)

def backTick : Char := Char.ofNat 96

/-- The fence-stripping of `_ensure_json`, applied to the primary text and
to the repaired text alike: strip whitespace; if the result starts with a
triple backtick, strip all leading/trailing backticks, delete every
occurrence of a json language tag followed by a newline, and strip again. -/
def strFenceL (cs : List Char) : List Char :=
  let c := trimL cs
  if leadsWith (List.replicate 3 backTick) c then
    trimL (replaceAllL "json\n".data []
      (((c.dropWhile (fun x => x = backTick)).reverse.dropWhile
          (fun x => x = backTick)).reverse))
  else c

def strFence (s : String) : String := String.mk (strFenceL s.data)

/-- The repair prompt of `_ensure_json` (quotes elided; opaque to the model). -/
def fixPromptFor (cleaned : String) : String :=
  "You will be given a possibly malformed JSON string. Fix it to be valid JSON. Return ONLY the corrected JSON. Input:\n"
    ++ cleaned

/-- `MainProposalChain._ensure_json`: parse the fence-stripped text; on
failure (or empty text) make one repair completion call, fence-strip and
parse its output; a second parse failure raises json.JSONDecodeError.
`parse` models `json.loads` (`none` = parse exception). -/
def ensureJsonS (parse : String → Option JVal) (script : Script) (text : String) :
    Except PyErr JVal × Script :=
  let cleaned := strFence text
  match (if cleaned = "" then none else parse cleaned) with
  | some v => (Except.ok v, script)
  | none =>
    let _prompt := fixPromptFor cleaned
    match takeCall script with
    | (Except.error e, s1) => (Except.error e, s1)
    | (Except.ok fixed, s1) =>
      match parse (strFence fixed) with
      | some v => (Except.ok v, s1)
      | none => (Except.error PyErr.jsonError, s1)

def fiveKeys : List String :=
  ["pain_points", "commitments", "timeline_hints", "budget_cues", "quotes"]

/-- The setdefault loop of `SummarizationChain.run`. -/
def applyInsightDefaults (fs : List (String × JVal)) : List (String × JVal) :=
  fiveKeys.foldl (fun acc k => setdefaultF acc k (JVal.jarr [])) fs

/-- The all-empty insights record returned on extraction failure. -/
def defaultInsights : JVal :=
  JVal.jobj (fiveKeys.map (fun k => (k, JVal.jarr [])))

def sumPromptFor (transcript : String) : String :=
  "Extract key insights from the call transcript. Return JSON with keys: pain_points (list), commitments (list), timeline_hints (list), budget_cues (list), quotes (list of short quotes). Transcript:\n"
    ++ transcript

/-- `SummarizationChain.run`.  The completion call sits outside the
try/except, so its failure propagates; a parse failure, or a parse result
that is not a dict (AttributeError on setdefault), is absorbed to the
all-empty record. -/
def summarizationRun (parse : String → Option JVal) (script : Script)
    (transcript : String) : Except PyErr JVal × Script :=
  let _prompt := sumPromptFor transcript
  match takeCall script with
  | (Except.error e, s1) => (Except.error e, s1)
  | (Except.ok out, s1) =>
    match parse out with
    | some (JVal.jobj fs) => (Except.ok (JVal.jobj (applyInsightDefaults fs)), s1)
    | _ => (Except.ok defaultInsights, s1)

/-- The fixed default audit of `QualityAuditChain.run`. -/
def defaultAudit : JVal :=
  JVal.jobj [("grade", JVal.jnum 70), ("summary", JVal.jstr "Basic check complete."),
             ("suggestions", JVal.jarr []), ("apply_notes", JVal.jarr [])]

/-- `QualityAuditChain.run`.  The completion call sits outside the
try/except, so its failure propagates; the parsed JSON is returned as-is
and only a parse failure is absorbed to the default audit. -/
def auditRun (parse : String → Option JVal) (script : Script)
    (_inputsJson _proposalMd : String) : Except PyErr JVal × Script :=
  match takeCall script with
  | (Except.error e, s1) => (Except.error e, s1)
  | (Except.ok out, s1) =>
    match parse out with
    | some v => (Except.ok v, s1)
    | none => (Except.ok defaultAudit, s1)

/-- `MainProposalChain`: the main template and the registered per-section
templates, both read from the prompts directory (data outside src/, hence
parameters of the model). -/
structure MainChain where
  mainTemplate : List TPart
  sectionPrompts : List (String × List TPart)

/-- The generic fallback template of `regenerate_section`
(`Write the section X in markdown. Tone: {brand_tone}`; quotes elided). -/
def genericSectionTpl (name : String) : List TPart :=
  [TPart.lit ("Write the section " ++ name ++ " in markdown. Tone: "),
   TPart.hole "brand_tone"]

def sectionTemplateFor (mc : MainChain) (name : String) : List TPart :=
  match List.lookup name mc.sectionPrompts with
  | some t => t
  | none => genericSectionTpl name

/-- `MainProposalChain.regenerate_section`: render the section template
(KeyError propagates, no completion call is made) and make one completion
call. -/
def regenerateSection (mc : MainChain) (script : Script) (name : String)
    (ctx : Ctx) : Except PyErr String × Script :=
  match renderParts ctx (sectionTemplateFor mc name) with
  | Except.error e => (Except.error e, script)
  | Except.ok _p => takeCall script

/-- The canonical section order of the per-section fallback in
`MainProposalChain.generate` (also the editor order in app.py). -/
def canonicalSections : List String :=
  ["Cover Page", "Executive Summary", "Problem & Opportunity",
   "Proposed Solution", "Scope of Work & Deliverables",
   "Timeline & Milestones", "Pricing & Payment Terms",
   "ROI / Impact / Metrics", "Risks & Mitigations", "Terms & Conditions",
   "Next Steps & CTA", "Appendix"]

/-- The per-section fallback loop: every per-section outcome is recorded;
the body stored in `built` is the text on success and the empty string on
any exception. -/
def perSectionLoop (mc : MainChain) (ctx : Ctx) :
    Script → List String → List (String × Except PyErr String) × Script
  | script, [] => ([], script)
  | script, n :: rest =>
    let pr := regenerateSection mc script n ctx
    let pt := perSectionLoop mc ctx pr.2 rest
    ((n, pr.1) :: pt.1, pt.2)

/-- `built[name]`: the generated text, or the empty string when the
per-section try/except caught an exception. -/
def resBody : Except PyErr String → String
  | Except.ok s => s
  | Except.error _ => ""

/-- `md_full` of the fallback branch. -/
def mdFullOf (outs : List (String × Except PyErr String)) : String :=
  String.intercalate "\n\n"
    (outs.map (fun p => "# " ++ p.1 ++ "\n\n" ++ resBody p.2))

/-- The document built by the fallback branch of
`MainProposalChain.generate`. -/
def fallbackDoc (ctx : Ctx) (outs : List (String × Except PyErr String)) : JVal :=
  JVal.jobj
    [("title", JVal.jstr (match List.lookup "project_title" ctx with
                          | some v => v
                          | none => "Proposal")),
     ("metadata", JVal.jobj (["company_name", "client_name", "brand_tone",
                              "language"].map (fun k =>
        (k, match List.lookup k ctx with
            | some v => JVal.jstr v
            | none => JVal.jnull)))),
     ("sections", JVal.jobj (outs.map (fun p => (p.1, JVal.jstr (resBody p.2))))),
     ("markdown_full", JVal.jstr (mdFullOf outs))]

/-- The fallback branch: synthesize the sections one by one in canonical
order and return the document (never an error). -/
def fallbackGen (mc : MainChain) (script : Script) (ctx : Ctx) :
    Except PyErr JVal × Script :=
  let pl := perSectionLoop mc ctx script canonicalSections
  (Except.ok (fallbackDoc ctx pl.1), pl.2)

/-- The key list of the sections mapping of a proposal document. -/
def docSectionNames : JVal → Option (List String)
  | JVal.jobj fs =>
    match List.lookup "sections" fs with
    | some (JVal.jobj ss) => some (ss.map Prod.fst)
    | _ => none
  | _ => none

/-- `not isinstance(data, dict) or not data.get("sections")`, negated. -/
def goodDoc : JVal → Bool
  | JVal.jobj fs =>
    match List.lookup "sections" fs with
    | some v => truthy v
    | none => false
  | _ => false

/-- `MainProposalChain.generate`: render the main template (KeyError
propagates), make the primary completion call (RuntimeError propagates),
run `_ensure_json` and the sections check inside try/except; any exception
there (bad JSON, empty sections, failed repair call) enters the
per-section fallback. -/
def mainGenerate (mc : MainChain) (parse : String → Option JVal)
    (script : Script) (ctx : Ctx) : Except PyErr JVal × Script :=
  match renderParts ctx mc.mainTemplate with
  | Except.error e => (Except.error e, script)
  | Except.ok _prompt =>
    match takeCall script with
    | (Except.error e, s1) => (Except.error e, s1)
    | (Except.ok out, s1) =>
      match ensureJsonS parse s1 out with
      | (Except.ok data, s2) =>
        if goodDoc data then (Except.ok data, s2) else fallbackGen mc s2 ctx
      | (Except.error _, s2) => fallbackGen mc s2 ctx

/-- The keep-test of the `_dedupe_headings` loop for a non-heading line
while no heading has been seen yet (`prev_head is None`): the line is
dropped exactly when its stripped lowercase text is non-empty and equals
the normalised title. -/
def keepLine (tn l : List Char) : Bool :=
  if normKey l ≠ [] ∧ normKey l = tn then false else true

/-- A line that is non-empty, carries no surrounding whitespace, and
contains no hash mark, pipe or newline character. -/
def goodLineB (l : List Char) : Bool :=
  (l ≠ []) && (lstripL l = l) && (rstripL l = l) &&
    ('#' ∉ l) && ('|' ∉ l) && ('\n' ∉ l)

/-! ## Concrete instances used by the theorems below -/

/-- A json.loads stub that fails on every input. -/
def parseNone : String → Option JVal := fun _ => none

/-- A json.loads stub that accepts exactly the text "A". -/
def parseOnlyA : String → Option JVal :=
  fun s => if s = "A" then some (JVal.jarr []) else none

/-- A completion capability that raises on every attempt. -/
def allFailAttempt : Nat → Except String String := fun _ => Except.error "boom"

/-- The RuntimeError raised by `LLMClient.generate` once retries are
exhausted. -/
def runtimeErr : PyErr := PyErr.completionFailed "LLM generation failed after retries"

/-- Inputs whose required fields are all non-empty but whose timeline has
fewer than three characters. -/
def c10Input : Ctx :=
  [("company_name", "Acme"), ("client_name", "Globex"),
   ("project_title", "Website Revamp"), ("goals", "Modern site"),
   ("budget", "5000"), ("timeline", "2d"), ("brand_tone", "Professional")]

/-- A MainProposalChain with an empty (placeholder-free) main template and
no registered section templates, so every section uses the generic
fallback template. -/
def emptyChain : MainChain := ⟨[], []⟩

/-- A MainProposalChain whose main template has a placeholder that the
contexts below do not provide. -/
def holeChain : MainChain := ⟨[TPart.hole "missing"], []⟩

def ctxTone : Ctx := [("brand_tone", "Warm"), ("project_title", "P")]

def ctxNoTone : Ctx := [("project_title", "P")]

/-- Twelve successful completions that all return the empty string. -/
def okEmptyScript : Script := List.replicate 12 (Except.ok "")

/-- A collapsed single-line milestone table (Milestone-first) with nine
pipes, a dash separator pair and four data tokens. -/
def wBody : String := "| Milestone | Date | --- | --- | A | B | C | D |"

/-- The tokens of wBody after the two header tokens. -/
def wRest : List (List Char) :=
  ["---".data, "---".data, "A".data, "B".data, "C".data, "D".data]

/-- A collapsed single-line table whose first token is Date, not
Milestone, so `_fix_inline_table` leaves it alone. -/
def dBody : String := "| Date | Milestone | D1 | M1 | D2 | M2 | D3 | M3 |"

/-! ## Helper lemmas -/

theorem foldl_collect (f : String → Bool) (msg : String → String) (l : List String) :
    ∀ acc : List String,
      l.foldl (fun a k => if f k then a else a ++ [msg k]) acc
        = acc ++ l.filterMap (fun k => if f k then none else some (msg k)) := by
  induction l with
  | nil => intro acc; simp
  | cons k rest ih =>
    intro acc
    by_cases h : f k
    · simp [List.foldl_cons, h, ih]
    · simp [List.foldl_cons, h, ih]

/-! ## Claim C10 -/

/-- Claim C10 as stated is false: an inputs mapping whose seven required
fields are all non-empty is nevertheless rejected when the timeline value
is shorter than three characters. -/
theorem claimC10_counterexample :
    (∀ k ∈ requiredFields, strTruthy (List.lookup k c10Input) = true) ∧
      (validateInputs c10Input).1 = false := by
  decide

/-- Claim C10 (amended): validate_inputs accepts exactly when every
required field is non-empty and the timeline value has at least three
characters; no other format requirement is imposed. -/
theorem claimC10_amended (data : Ctx) :
    (validateInputs data).1 = true ↔
      ((∀ k ∈ requiredFields, strTruthy (List.lookup k data) = true) ∧
        3 ≤ (match List.lookup "timeline" data with
             | some t => t.length
             | none => 0)) := by
  unfold validateInputs
  simp only [foldl_collect (fun k => strTruthy (List.lookup k data))
    (fun k => "Missing required field: " ++ k) requiredFields, List.nil_append,
    decide_eq_true_eq, List.append_eq_nil, List.filterMap_eq_nil_iff]
  constructor
  · rintro ⟨h1, h2⟩
    have hall : ∀ k ∈ requiredFields, strTruthy (List.lookup k data) = true := by
      intro k hk
      have := h1 k hk
      by_contra hf
      simp [hf] at this
    refine ⟨hall, ?_⟩
    have htl : strTruthy (List.lookup "timeline" data) = true :=
      hall "timeline" (by decide)
    revert h2 htl
    cases h : List.lookup "timeline" data with
    | none => intro h2 htl; simp [strTruthy] at htl
    | some t =>
      intro h2 htl
      simp only [strTruthy] at htl
      by_cases hlen : t.length < 3
      · simp [decide_eq_true_eq.mp htl, hlen] at h2
      · change 3 ≤ t.length
        omega
  · rintro ⟨hall, hlen⟩
    constructor
    · intro k hk
      simp [hall k hk]
    · revert hlen
      cases h : List.lookup "timeline" data with
      | none => intro h2; simp
      | some t =>
        intro h2
        change 3 ≤ t.length at h2
        have hnot : ¬ (t ≠ "" ∧ t.length < 3) := by
          rintro ⟨-, hlt⟩
          omega
        simp [hnot]

/-! ## Lookup / setdefault helper lemmas -/

theorem lookup_append_left {α β : Type} [BEq α] (a : α) (l1 l2 : List (α × β))
    (w : β) (h : List.lookup a l1 = some w) :
    List.lookup a (l1 ++ l2) = some w := by
  induction l1 with
  | nil => simp [List.lookup] at h
  | cons p t ih =>
    rw [List.cons_append, List.lookup] at *
    cases hab : (a == p.1) with
    | true => simpa [hab] using h
    | false =>
      simp only [hab] at h ⊢
      exact ih h

theorem lookup_append_right {α β : Type} [BEq α] (a : α) (l1 l2 : List (α × β))
    (h : List.lookup a l1 = none) :
    List.lookup a (l1 ++ l2) = List.lookup a l2 := by
  induction l1 with
  | nil => simp
  | cons p t ih =>
    rw [List.cons_append, List.lookup] at *
    cases hab : (a == p.1) with
    | true => simp [hab] at h
    | false =>
      simp only [hab] at h ⊢
      exact ih h

theorem lookup_setdefault_self (fs : List (String × JVal)) (k : String) (v : JVal) :
    (List.lookup k (setdefaultF fs k v)).isSome = true := by
  unfold setdefaultF
  cases h : List.lookup k fs with
  | some w => simp [h]
  | none =>
    rw [lookup_append_right k fs [(k, v)] h]
    simp [List.lookup]

theorem lookup_setdefault_mono (fs : List (String × JVal)) (k k' : String) (v : JVal)
    (h : (List.lookup k fs).isSome = true) :
    (List.lookup k (setdefaultF fs k' v)).isSome = true := by
  unfold setdefaultF
  cases h2 : List.lookup k' fs with
  | some w => simpa [h2] using h
  | none =>
    cases h3 : List.lookup k fs with
    | none => rw [h3] at h; simp at h
    | some w => simp [lookup_append_left k fs [(k', v)] w h3]

theorem foldl_setdefault_keys (ks : List String) :
    ∀ (fs : List (String × JVal)) (k : String),
      (k ∈ ks ∨ (List.lookup k fs).isSome = true) →
      (List.lookup k (ks.foldl (fun a k2 => setdefaultF a k2 (JVal.jarr [])) fs)).isSome
        = true := by
  induction ks with
  | nil =>
    intro fs k h
    simpa using h.resolve_left (by simp)
  | cons k2 rest ih =>
    intro fs k h
    rw [List.foldl_cons]
    rcases h with h | h
    · rcases List.mem_cons.mp h with rfl | hm
      · exact ih _ k (Or.inr (lookup_setdefault_self fs k _))
      · exact ih _ k (Or.inl hm)
    · exact ih _ k (Or.inr (lookup_setdefault_mono fs k k2 _ h))

/-! ## Claim C4 -/

/-- Claim C4 as stated is false: when the completion client itself fails
(a client raising on every attempt makes LLMClient.generate raise a
RuntimeError after retries), SummarizationChain.run propagates the error
instead of returning a five-key record — the generate call sits outside
the try/except. -/
theorem claimC4_counterexample :
    llmGenerate allFailAttempt 3 0 = Except.error runtimeErr ∧
      summarizationRun parseNone [Except.error runtimeErr] "call transcript" =
        (Except.error runtimeErr, []) ∧
      ∀ (v : JVal) (s : Script),
        (Except.error runtimeErr, ([] : Script)) ≠ (Except.ok v, s) := by
  refine ⟨rfl, rfl, ?_⟩
  intro v s h
  simp [Prod.ext_iff] at h

/-- Claim C4 (amended): whenever the completion call returns text,
summarizeTranscript returns a JSON object containing all five insight
keys — the all-empty record when the text does not parse as an object,
and otherwise the parsed object with every missing key defaulted to an
empty list; only a failure of the completion call itself propagates. -/
theorem claimC4_amended (parse : String → Option JVal) (out : String)
    (s1 : Script) (t : String) :
    ∃ fs, summarizationRun parse (Except.ok out :: s1) t =
        (Except.ok (JVal.jobj fs), s1) ∧
      (∀ k ∈ fiveKeys, (List.lookup k fs).isSome = true) ∧
      (parse out = none → JVal.jobj fs = defaultInsights) := by
  have hrun : summarizationRun parse (Except.ok out :: s1) t =
      (match parse out with
       | some (JVal.jobj fs) => (Except.ok (JVal.jobj (applyInsightDefaults fs)), s1)
       | _ => (Except.ok defaultInsights, s1)) := by
    simp [summarizationRun, takeCall]
  cases hp : parse out with
  | none =>
    rw [hp] at hrun
    exact ⟨fiveKeys.map (fun k => (k, JVal.jarr [])), hrun.trans rfl, by decide,
           fun _ => rfl⟩
  | some v =>
    revert hp
    cases v
    case jobj fs =>
      intro hp
      rw [hp] at hrun
      refine ⟨applyInsightDefaults fs, hrun.trans rfl,
              fun k hk => foldl_setdefault_keys fiveKeys fs k (Or.inl hk),
              fun h => ?_⟩
      exact absurd h (by simp)
    all_goals
      intro hp
      rw [hp] at hrun
      exact ⟨fiveKeys.map (fun k => (k, JVal.jarr [])), hrun.trans rfl, by decide,
             fun _ => rfl⟩

/-- Witness for claimC4_amended at a concrete input: a stub completion
returning the unparseable text "not json" yields the all-empty record. -/
theorem claimC4_witness :
    ∃ fs, summarizationRun parseNone [Except.ok "not json"] "hello" =
        (Except.ok (JVal.jobj fs), []) ∧
      (∀ k ∈ fiveKeys, (List.lookup k fs).isSome = true) ∧
      (parseNone "not json" = none → JVal.jobj fs = defaultInsights) :=
  claimC4_amended parseNone "not json" [] "hello"

/-! ## Claim C5 -/

/-- Claim C5 as stated is false: with a completion client that raises on
every attempt, auditQuality propagates the RuntimeError instead of
returning the default audit — the generate call sits outside the
try/except. -/
theorem claimC5_counterexample :
    llmGenerate allFailAttempt 3 0 = Except.error runtimeErr ∧
      auditRun parseNone [Except.error runtimeErr] "inputs json" "proposal md" =
        (Except.error runtimeErr, []) ∧
      ∀ s, (Except.error runtimeErr, ([] : Script)) ≠ (Except.ok defaultAudit, s) := by
  refine ⟨rfl, rfl, ?_⟩
  intro s h
  simp [Prod.ext_iff] at h

/-- Claim C5 (amended): whenever the completion call returns text,
auditQuality returns the parsed JSON unchanged (with no shape guarantee)
when the text parses, and exactly the literal default audit when it does
not; a failure of the completion call itself propagates. -/
theorem claimC5_amended (parse : String → Option JVal) (out : String)
    (s1 : Script) (iJson pMd : String) :
    auditRun parse (Except.ok out :: s1) iJson pMd =
      ((match parse out with
        | some v => Except.ok v
        | none => Except.ok defaultAudit), s1) := by
  have hrun : auditRun parse (Except.ok out :: s1) iJson pMd =
      (match parse out with
       | some v => (Except.ok v, s1)
       | none => (Except.ok defaultAudit, s1)) := by
    simp [auditRun, takeCall]
  rw [hrun]
  cases parse out <;> rfl

/-! ## Claim C2 -/

/-- Claim C2: _ensure_json first fence-strips the text (strFence); if the
cleaned text is non-empty and parses, the parse is returned with no repair
completion call (the script is untouched); otherwise — including empty
cleaned text — exactly one repair completion call is consumed, the repaired
text is fence-stripped the same way (the same strFence), and the result is
its parse or a json.JSONDecodeError (the spec's UnrecoverableJson); never
more than one repair attempt is made. -/
theorem claimC2_theorem (parse : String → Option JVal) (script : Script)
    (text : String) :
    (∀ v : JVal, strFence text ≠ "" → parse (strFence text) = some v →
        ensureJsonS parse script text = (Except.ok v, script)) ∧
    ((strFence text = "" ∨ parse (strFence text) = none) →
      (∀ (fixed : String) (s1 : Script), script = Except.ok fixed :: s1 →
          ensureJsonS parse script text =
            ((match parse (strFence fixed) with
              | some v => Except.ok v
              | none => Except.error PyErr.jsonError), s1)) ∧
      (∀ (e : PyErr) (s1 : Script), script = Except.error e :: s1 →
          ensureJsonS parse script text = (Except.error e, s1))) := by
  refine ⟨?_, fun hcond => ⟨?_, ?_⟩⟩
  · intro v hne hp
    simp [ensureJsonS, hne, hp]
  · rintro fixed s1 rfl
    have hnone : (if strFence text = "" then none else parse (strFence text))
        = (none : Option JVal) := by
      rcases hcond with h | h
      · simp [h]
      · by_cases hif : strFence text = "" <;> simp [hif, h]
    have hrun : ensureJsonS parse (Except.ok fixed :: s1) text =
        (match parse (strFence fixed) with
         | some v => (Except.ok v, s1)
         | none => (Except.error PyErr.jsonError, s1)) := by
      simp [ensureJsonS, hnone, takeCall]
    rw [hrun]
    cases parse (strFence fixed) <;> rfl
  · rintro e s1 rfl
    have hnone : (if strFence text = "" then none else parse (strFence text))
        = (none : Option JVal) := by
      rcases hcond with h | h
      · simp [h]
      · by_cases hif : strFence text = "" <;> simp [hif, h]
    simp [ensureJsonS, hnone, takeCall]

/-- Witness for claimC2_theorem: the direct-parse branch at text "A" with
a parser that accepts exactly "A" (no repair call, script untouched), and
the repair branch at unparseable text "bad" — one repair call, ending in
either the json error or the propagated completion failure. -/
theorem claimC2_witness :
    (strFence "A" ≠ "" ∧ parseOnlyA (strFence "A") = some (JVal.jarr []) ∧
       ensureJsonS parseOnlyA [] "A" = (Except.ok (JVal.jarr []), [])) ∧
    ((strFence "bad" = "" ∨ parseNone (strFence "bad") = none) ∧
       ensureJsonS parseNone [Except.ok "B"] "bad" =
         (Except.error PyErr.jsonError, []) ∧
       ensureJsonS parseNone [Except.error runtimeErr] "bad" =
         (Except.error runtimeErr, [])) :=
  ⟨⟨by decide, rfl,
    (claimC2_theorem parseOnlyA [] "A").1 (JVal.jarr []) (by decide) rfl⟩,
   ⟨Or.inr rfl,
    (((claimC2_theorem parseNone [Except.ok "B"] "bad").2 (Or.inr rfl)).1
        "B" [] rfl).trans rfl,
    ((claimC2_theorem parseNone [Except.error runtimeErr] "bad").2
        (Or.inr rfl)).2 runtimeErr [] rfl⟩⟩

/-! ## Per-section loop helper lemmas -/

theorem perSectionLoop_fst (mc : MainChain) (ctx : Ctx) :
    ∀ (names : List String) (script : Script),
      (perSectionLoop mc ctx script names).1.map Prod.fst = names := by
  intro names
  induction names with
  | nil => intro script; rfl
  | cons n rest ih =>
    intro script
    simp [perSectionLoop, ih]

theorem perSectionLoop_member_renderFail (mc : MainChain) (ctx : Ctx) (e : PyErr)
    (name : String)
    (hre : renderParts ctx (sectionTemplateFor mc name) = Except.error e) :
    ∀ (names : List String) (script : Script), name ∈ names →
      (name, Except.error e) ∈ (perSectionLoop mc ctx script names).1 := by
  intro names
  induction names with
  | nil => intro script h; cases h
  | cons n rest ih =>
    intro script hm
    rcases List.mem_cons.mp hm with rfl | hm2
    · show (name, Except.error e) ∈
        (name, (regenerateSection mc script name ctx).1) ::
          (perSectionLoop mc ctx (regenerateSection mc script name ctx).2 rest).1
      rw [regenerateSection, hre]
      exact List.mem_cons_self _ _
    · show (name, Except.error e) ∈
        (n, (regenerateSection mc script n ctx).1) ::
          (perSectionLoop mc ctx (regenerateSection mc script n ctx).2 rest).1
      exact List.mem_cons_of_mem _ (ih _ hm2)

/-! ## Claim C9 -/

/-- Claim C9 as stated is false: inside the per-section fallback of
generateFull, a missing context key (here brand_tone, needed by the
generic section template) is caught by the blanket per-section
try/except and absorbed to an empty section body, and generateFull
returns a document instead of propagating the KeyError. -/
theorem claimC9_counterexample :
    renderParts ctxNoTone (sectionTemplateFor emptyChain "Appendix") =
        Except.error (PyErr.keyError "brand_tone") ∧
      mainGenerate emptyChain parseNone
          [Except.ok "bad", Except.ok "alsobad"] ctxNoTone =
        (Except.ok (fallbackDoc ctxNoTone (canonicalSections.map
            (fun n => (n, Except.error (PyErr.keyError "brand_tone"))))), []) :=
  ⟨rfl, rfl⟩

/-- Claim C9 (amended): a missing template placeholder raises KeyError
(MissingContextKey), which propagates from the primary render of
generateFull and from regenerateSection without any retry and without any
completion call being made; inside the per-section fallback of
generateFull, however, it is caught like any other per-section failure
and absorbed to an empty body while generateFull still returns a
document. -/
theorem claimC9_amended (mc : MainChain) (parse : String → Option JVal)
    (ctx : Ctx) (script : Script) (e : PyErr) :
    (renderParts ctx mc.mainTemplate = Except.error e →
        mainGenerate mc parse script ctx = (Except.error e, script)) ∧
    (∀ name, renderParts ctx (sectionTemplateFor mc name) = Except.error e →
        regenerateSection mc script name ctx = (Except.error e, script)) ∧
    (∀ name, name ∈ canonicalSections →
        renderParts ctx (sectionTemplateFor mc name) = Except.error e →
        (name, Except.error e) ∈ (perSectionLoop mc ctx script canonicalSections).1 ∧
        resBody (Except.error e) = "" ∧
        fallbackGen mc script ctx =
          (Except.ok (fallbackDoc ctx (perSectionLoop mc ctx script canonicalSections).1),
           (perSectionLoop mc ctx script canonicalSections).2)) := by
  refine ⟨?_, ?_, ?_⟩
  · intro h
    simp [mainGenerate, h]
  · intro name h
    simp [regenerateSection, h]
  · intro name hmem hre
    exact ⟨perSectionLoop_member_renderFail mc ctx e name hre canonicalSections script hmem,
           rfl, rfl⟩

/-- Witness for claimC9_amended at concrete inputs: a main template with a
missing placeholder propagates its KeyError; the generic section template
with a context lacking brand_tone propagates from regenerateSection; and
Cover Page inside the fallback loop records the absorbed KeyError. -/
theorem claimC9_witness :
    (renderParts ctxNoTone holeChain.mainTemplate =
        Except.error (PyErr.keyError "missing") ∧
      mainGenerate holeChain parseNone [] ctxNoTone =
        (Except.error (PyErr.keyError "missing"), [])) ∧
    (renderParts ctxNoTone (sectionTemplateFor emptyChain "Cover Page") =
        Except.error (PyErr.keyError "brand_tone") ∧
      regenerateSection emptyChain [] "Cover Page" ctxNoTone =
        (Except.error (PyErr.keyError "brand_tone"), [])) ∧
    ("Cover Page" ∈ canonicalSections ∧
      ("Cover Page", Except.error (PyErr.keyError "brand_tone")) ∈
        (perSectionLoop emptyChain ctxNoTone [] canonicalSections).1) :=
  ⟨⟨rfl, (claimC9_amended holeChain parseNone ctxNoTone []
            (PyErr.keyError "missing")).1 rfl⟩,
   ⟨rfl, (claimC9_amended emptyChain parseNone ctxNoTone []
            (PyErr.keyError "brand_tone")).2.1 "Cover Page" rfl⟩,
   ⟨by decide, ((claimC9_amended emptyChain parseNone ctxNoTone []
            (PyErr.keyError "brand_tone")).2.2 "Cover Page" (by decide) rfl).1⟩⟩

/-! ## Claim C1 -/

/-- Claim C1 as stated is false in its "empty-string body exactly for the
sections whose individual generation failed" part: when every per-section
completion succeeds but returns the empty string, every body is empty even
though no generation failed. -/
theorem claimC1_counterexample :
    mainGenerate emptyChain parseNone
        (Except.ok "junk" :: Except.ok "junk2" :: okEmptyScript) ctxTone =
      (Except.ok (fallbackDoc ctxTone (canonicalSections.map
          (fun n => (n, Except.ok "")))), []) ∧
    ¬ (∀ pr ∈ (perSectionLoop emptyChain ctxTone okEmptyScript canonicalSections).1,
          resBody pr.2 = "" → ∃ e, pr.2 = Except.error e) := by
  constructor
  · rfl
  · intro h
    have hloop : (perSectionLoop emptyChain ctxTone okEmptyScript canonicalSections).1 =
        canonicalSections.map (fun n => (n, Except.ok "")) := rfl
    rw [hloop] at h
    have hcp : "Cover Page" ∈ canonicalSections := by decide
    rcases h _ (List.mem_map_of_mem _ hcp) rfl with ⟨e, he⟩
    cases he

/-- Claim C1 (amended): when the primary render succeeds, the primary
completion returns text, and extraction of that text fails or yields a
value without a truthy sections mapping, generateFull runs the
per-section fallback over the canonical order and returns (never raises) a
document whose sections are exactly the twelve canonical names in
canonical order; every failed section gets the empty-string body and every
successful section gets the generated text verbatim (so an empty body
indicates a failed generation or a generation that returned empty text). -/
theorem claimC1_amended (mc : MainChain) (parse : String → Option JVal)
    (ctx : Ctx) (p out : String) (s1 : Script)
    (hrender : renderParts ctx mc.mainTemplate = Except.ok p)
    (hfail : ∀ d s2, ensureJsonS parse s1 out = (Except.ok d, s2) →
        goodDoc d = false) :
    ∃ outs s2,
      perSectionLoop mc ctx (ensureJsonS parse s1 out).2 canonicalSections =
        (outs, s2) ∧
      mainGenerate mc parse (Except.ok out :: s1) ctx =
        (Except.ok (fallbackDoc ctx outs), s2) ∧
      outs.map Prod.fst = canonicalSections ∧
      (∀ pr ∈ outs, (∀ e, pr.2 = Except.error e → resBody pr.2 = "") ∧
                    (∀ s, pr.2 = Except.ok s → resBody pr.2 = s)) := by
  refine ⟨(perSectionLoop mc ctx (ensureJsonS parse s1 out).2 canonicalSections).1,
          (perSectionLoop mc ctx (ensureJsonS parse s1 out).2 canonicalSections).2,
          rfl, ?_, perSectionLoop_fst mc ctx canonicalSections _, ?_⟩
  · rcases hej2 : ensureJsonS parse s1 out with ⟨r, s2⟩
    revert hej2
    cases r with
    | ok d =>
      intro hej2
      have hg := hfail d s2 hej2
      simp [mainGenerate, takeCall, hrender, hej2, hg, fallbackGen]
    | error e2 =>
      intro hej2
      simp [mainGenerate, takeCall, hrender, hej2, fallbackGen]
  · intro pr _
    exact ⟨fun e he => by simp [resBody, he], fun s hs => by simp [resBody, hs]⟩

/-- Witness for claimC1_amended at concrete inputs: malformed primary
output "junk", a failing repair, and twelve per-section completions that
all succeed with empty text. -/
theorem claimC1_witness :
    (renderParts ctxTone emptyChain.mainTemplate = Except.ok "") ∧
    (∀ d s2, ensureJsonS parseNone (Except.ok "junk2" :: okEmptyScript) "junk" =
        (Except.ok d, s2) → goodDoc d = false) ∧
    (∃ outs s2,
      perSectionLoop emptyChain ctxTone
          (ensureJsonS parseNone (Except.ok "junk2" :: okEmptyScript) "junk").2
          canonicalSections = (outs, s2) ∧
      mainGenerate emptyChain parseNone
          (Except.ok "junk" :: Except.ok "junk2" :: okEmptyScript) ctxTone =
        (Except.ok (fallbackDoc ctxTone outs), s2) ∧
      outs.map Prod.fst = canonicalSections ∧
      (∀ pr ∈ outs, (∀ e, pr.2 = Except.error e → resBody pr.2 = "") ∧
                    (∀ s, pr.2 = Except.ok s → resBody pr.2 = s))) :=
  ⟨rfl, fun d s2 h => by simp [show ensureJsonS parseNone
      (Except.ok "junk2" :: okEmptyScript) "junk" =
      (Except.error PyErr.jsonError, okEmptyScript) from rfl] at h,
   claimC1_amended emptyChain parseNone ctxTone "" "junk"
      (Except.ok "junk2" :: okEmptyScript) rfl
      (fun d s2 h => by simp [show ensureJsonS parseNone
          (Except.ok "junk2" :: okEmptyScript) "junk" =
          (Except.error PyErr.jsonError, okEmptyScript) from rfl] at h)⟩

/-! ## Claim C6 -/

/-- Claim C6 is the intended behaviour, but the gen_btn handler and the
editor loop test the first line against the raw-string regex
`^#{1,6}\\s+` — a literal backslash followed by the letter s — instead of
`^#{1,6}\s+` as in the Regenerate-Section and Load handlers.  At the
failing input below (title Executive Summary, normalized body starting
with the real heading line `# Overview`) the fresh-generation/editor
composition re-prefixes a body that already starts with a heading,
producing two headings, while the regenerate/load composition correctly
leaves it unchanged. -/
theorem claimC6_bug :
    normalizeSection "Executive Summary" "# Overview\nBody text." =
        "# Overview\nBody text." ∧
      matchRealHeading "# Overview".data = true ∧
      matchBuggyHeading "# Overview".data = false ∧
      ensureHeadingWith matchBuggyHeading "Executive Summary".data
          (normalizeSectionL "Executive Summary".data "# Overview\nBody text.".data) =
        "# Executive Summary\n\n# Overview\nBody text.".data ∧
      ensureHeadingWith matchRealHeading "Executive Summary".data
          (normalizeSectionL "Executive Summary".data "# Overview\nBody text.".data) =
        "# Overview\nBody text.".data := by
  decide

/-! ## Claim C7 -/

/-- Claim C7 as stated is false: the gen_btn handler stores the
completion's sections mapping as returned — keys need not be canonical —
and derives markdown_full in the mapping's own insertion order, not in
canonical order. -/
theorem claimC7_counterexample :
    ((genBtnUpdate [("Bonus", "b"), ("Cover Page", "c")]).1.map Prod.fst =
        ["Bonus", "Cover Page"]) ∧
      "Bonus" ∉ canonicalSections ∧
      (genBtnUpdate [("Bonus", "b"), ("Cover Page", "c")]).2 =
        "# Bonus\n\nb\n\n# Cover Page\n\nc".data := by
  decide

/-- Claim C7 (amended): the session stores the completion's sections
mapping with its key set and order unchanged, and markdown_full is the
concatenation of the normalized, heading-ensured sections in that same
order; only the per-section fallback of generateFull guarantees a
document whose sections are exactly the twelve canonical names in
canonical order. -/
theorem claimC7_amended (mc : MainChain) (ctx : Ctx) (script : Script)
    (secs : List (String × String)) :
    (genBtnUpdate secs).1 = secs ∧
    (genBtnUpdate secs).2 =
      joinWith "\n\n".data (secs.map (fun p => composeBlock p.1 p.2)) ∧
    (∃ d, (fallbackGen mc script ctx).1 = Except.ok d ∧
       docSectionNames d = some canonicalSections) := by
  refine ⟨rfl, rfl,
    ⟨fallbackDoc ctx (perSectionLoop mc ctx script canonicalSections).1, rfl, ?_⟩⟩
  have hfst := perSectionLoop_fst mc ctx canonicalSections script
  simp [docSectionNames, fallbackDoc, List.lookup, List.map_map, Function.comp]
  simpa using hfst

/-! ## List lemmas for the normalizer proofs -/

theorem length_dropWhile_le (p : Char → Bool) (l : List Char) :
    (l.dropWhile p).length ≤ l.length := by
  induction l with
  | nil => simp
  | cons c t ih =>
    by_cases h : p c
    · rw [List.dropWhile_cons, if_pos h]
      simp only [List.length_cons]
      omega
    · rw [List.dropWhile_cons, if_neg h]

theorem dropWhile_head_false (p : Char → Bool) (cs : List Char)
    (h : cs.dropWhile p = cs) :
    ∀ c, cs.head? = some c → p c = false := by
  cases cs with
  | nil => intro c hc; cases hc
  | cons a t =>
    intro c hc
    injection hc with hac
    subst hac
    by_contra hp
    rw [Bool.not_eq_false] at hp
    rw [List.dropWhile_cons, if_pos hp] at h
    have h1 := length_dropWhile_le p t
    have h2 := congrArg List.length h
    simp only [List.length_cons] at h2
    omega

theorem dropWhile_append_fixed (p : Char → Bool) (a b : List Char)
    (ha : a.dropWhile p = a) (hne : a ≠ []) :
    (a ++ b).dropWhile p = a ++ b := by
  cases a with
  | nil => exact absurd rfl hne
  | cons c t =>
    have hc : p c = false := dropWhile_head_false p (c :: t) ha c rfl
    rw [List.cons_append, List.dropWhile_cons, if_neg (by simp [hc])]

theorem dropWhile_fixed (p : Char → Bool) (l : List Char) :
    (l.dropWhile p).dropWhile p = l.dropWhile p := by
  induction l with
  | nil => simp
  | cons c t ih =>
    by_cases h : p c
    · rw [List.dropWhile_cons, if_pos h]
      exact ih
    · rw [List.dropWhile_cons, if_neg h, List.dropWhile_cons, if_neg h]

theorem mem_of_mem_dropWhile (p : Char → Bool) {c : Char} {cs : List Char}
    (h : c ∈ cs.dropWhile p) : c ∈ cs := by
  induction cs with
  | nil => simp at h
  | cons a t ih =>
    by_cases hp : p a
    · rw [List.dropWhile_cons, if_pos hp] at h
      exact List.mem_cons_of_mem _ (ih h)
    · rwa [List.dropWhile_cons, if_neg hp] at h

theorem mem_of_head? {α : Type} {l : List α} {c : α} (h : l.head? = some c) :
    c ∈ l := by
  cases l with
  | nil => cases h
  | cons a t =>
    injection h with h
    subst h
    exact List.mem_cons_self _ _

theorem head?_append_left {α : Type} (a b : List α) (hne : a ≠ []) :
    (a ++ b).head? = a.head? := by
  cases a with
  | nil => exact absurd rfl hne
  | cons c t => rfl

theorem lstripL_idem (cs : List Char) : lstripL (lstripL cs) = lstripL cs :=
  dropWhile_fixed _ cs

theorem rstripL_idem (cs : List Char) : rstripL (rstripL cs) = rstripL cs := by
  unfold rstripL
  rw [List.reverse_reverse, dropWhile_fixed]

theorem rstripL_fixed_of_last (cs : List Char)
    (h : ∀ c, cs.getLast? = some c → c.isWhitespace = false) :
    rstripL cs = cs := by
  unfold rstripL
  cases hr : cs.reverse with
  | nil =>
    have : cs = [] := by simpa using congrArg List.reverse hr
    simp [this]
  | cons c t =>
    have hlast : cs.getLast? = some c := by
      rw [← List.head?_reverse, hr]
      rfl
    rw [List.dropWhile_cons, if_neg (by simp [h c hlast]), ← hr,
        List.reverse_reverse]

theorem rstripL_last_false (cs : List Char) (h : rstripL cs = cs) :
    ∀ c, cs.getLast? = some c → c.isWhitespace = false := by
  intro c hc
  have h2 : cs.reverse.dropWhile Char.isWhitespace = cs.reverse := by
    have := congrArg List.reverse h
    rwa [rstripL, List.reverse_reverse] at this
  exact dropWhile_head_false _ _ h2 c (by rw [List.head?_reverse]; exact hc)

theorem rstripL_append_fixed (a b : List Char) (hb : rstripL b = b)
    (hne : b ≠ []) :
    rstripL (a ++ b) = a ++ b := by
  have hfix : b.reverse.dropWhile Char.isWhitespace = b.reverse := by
    have := congrArg List.reverse hb
    rwa [rstripL, List.reverse_reverse] at this
  have hne2 : b.reverse ≠ [] := by simpa using hne
  unfold rstripL
  rw [List.reverse_append, dropWhile_append_fixed _ _ _ hfix hne2,
      ← List.reverse_append, List.reverse_reverse]

theorem getLast?_append_right {α : Type} (a b : List α) (hne : b ≠ []) :
    (a ++ b).getLast? = b.getLast? := by
  rw [← List.head?_reverse, List.reverse_append,
      head?_append_left _ _ (by simpa using hne), List.head?_reverse]

theorem trimL_fixed_of (cs : List Char) (h1 : lstripL cs = cs)
    (h2 : rstripL cs = cs) : trimL cs = cs := by
  unfold trimL
  rw [h1, h2]

theorem rstripL_prefix (cs : List Char) : rstripL cs <+: cs := by
  have hsuf : cs.reverse.dropWhile Char.isWhitespace <:+ cs.reverse :=
    List.dropWhile_suffix _
  obtain ⟨t, ht⟩ := hsuf
  refine ⟨t.reverse, ?_⟩
  unfold rstripL
  rw [← List.reverse_append, ht, List.reverse_reverse]

theorem lstrip_of_rstrip_fixed (y : List Char) (hy : lstripL y = y) :
    lstripL (rstripL y) = rstripL y := by
  cases hr : rstripL y with
  | nil => rfl
  | cons c t =>
    have hpre := rstripL_prefix y
    rw [hr] at hpre
    obtain ⟨r, hrr⟩ := hpre
    have hhead : y.head? = some c := by rw [← hrr]; rfl
    have hc : Char.isWhitespace c = false := dropWhile_head_false _ y hy c hhead
    show (c :: t).dropWhile Char.isWhitespace = c :: t
    rw [List.dropWhile_cons, if_neg (by simp [hc])]

theorem lstripL_trimL (cs : List Char) : lstripL (trimL cs) = trimL cs :=
  lstrip_of_rstrip_fixed _ (lstripL_idem cs)

theorem rstripL_trimL (cs : List Char) : rstripL (trimL cs) = trimL cs := by
  unfold trimL
  exact rstripL_idem _

theorem trimL_idem (cs : List Char) : trimL (trimL cs) = trimL cs :=
  trimL_fixed_of _ (lstripL_trimL cs) (rstripL_trimL cs)

theorem not_mem_trimL {c : Char} {cs : List Char} (h : c ∉ cs) :
    c ∉ trimL cs := by
  intro hm
  unfold trimL rstripL at hm
  rw [List.mem_reverse] at hm
  have h2 := mem_of_mem_dropWhile _ hm
  rw [List.mem_reverse] at h2
  exact h (mem_of_mem_dropWhile _ h2)

/-! ## splitNl / joinNl lemmas -/

theorem splitOnC_ne_nil (sep : Char) (cs : List Char) : splitOnC sep cs ≠ [] := by
  cases cs with
  | nil => simp [splitOnC]
  | cons c t =>
    by_cases h : c = sep
    · simp [splitOnC, h]
    · simp only [splitOnC, if_neg h]
      cases splitOnC sep t <;> simp

theorem splitOnC_no_sep (sep : Char) (cs : List Char) :
    ∀ l ∈ splitOnC sep cs, sep ∉ l := by
  induction cs with
  | nil =>
    intro l hl
    simp only [splitOnC, List.mem_singleton] at hl
    simp [hl]
  | cons c t ih =>
    intro l hl
    by_cases h : c = sep
    · simp only [splitOnC, if_pos h, List.mem_cons] at hl
      rcases hl with rfl | hm
      · simp
      · exact ih l hm
    · simp only [splitOnC, if_neg h] at hl
      cases hs : splitOnC sep t with
      | nil => exact absurd hs (splitOnC_ne_nil sep t)
      | cons h2 t2 =>
        rw [hs] at hl
        rcases List.mem_cons.mp hl with rfl | hm
        · have hh2 : sep ∉ h2 := ih h2 (by rw [hs]; exact List.mem_cons_self _ _)
          intro hmem
          rcases List.mem_cons.mp hmem with rfl | hin
          · exact h rfl
          · exact hh2 hin
        · exact ih l (by rw [hs]; exact List.mem_cons_of_mem _ hm)

theorem joinNl_cons_cons (x y : List Char) (t : List (List Char)) :
    joinNl (x :: y :: t) = x ++ '\n' :: joinNl (y :: t) := by
  show x ++ ['\n'] ++ joinWith ['\n'] (y :: t) = x ++ '\n' :: joinWith ['\n'] (y :: t)
  rw [List.append_assoc]
  rfl

theorem joinNl_splitNl (cs : List Char) : joinNl (splitNl cs) = cs := by
  induction cs with
  | nil => rfl
  | cons c t ih =>
    show joinNl (splitOnC '\n' (c :: t)) = c :: t
    by_cases h : c = '\n'
    · simp only [splitOnC, if_pos h]
      cases hs : splitOnC '\n' t with
      | nil => exact absurd hs (splitOnC_ne_nil _ t)
      | cons h2 t2 =>
        rw [joinNl_cons_cons, List.nil_append, h]
        have ih2 : joinNl (h2 :: t2) = t := by rw [← hs]; exact ih
        rw [ih2]
    · simp only [splitOnC, if_neg h]
      cases hs : splitOnC '\n' t with
      | nil => exact absurd hs (splitOnC_ne_nil _ t)
      | cons h2 t2 =>
        have ih2 : joinNl (h2 :: t2) = t := by rw [← hs]; exact ih
        cases t2 with
        | nil =>
          show (c :: h2) = c :: t
          rw [← ih2]
          rfl
        | cons z t3 =>
          show joinNl ((c :: h2) :: z :: t3) = c :: t
          rw [joinNl_cons_cons, ← ih2, joinNl_cons_cons]
          rfl

theorem splitNl_single (f : List Char) (h : '\n' ∉ f) : splitNl f = [f] := by
  induction f with
  | nil => rfl
  | cons c t ih =>
    have hc : ¬ c = '\n' := fun heq => h (by rw [heq]; exact List.mem_cons_self _ _)
    have ht : '\n' ∉ t := fun hm => h (List.mem_cons_of_mem _ hm)
    show splitOnC '\n' (c :: t) = [c :: t]
    simp only [splitOnC, if_neg hc]
    rw [show splitOnC '\n' t = splitNl t from rfl, ih ht]

theorem splitNl_append_cons (f r : List Char) (h : '\n' ∉ f) :
    splitNl (f ++ '\n' :: r) = f :: splitNl r := by
  induction f with
  | nil =>
    show splitOnC '\n' ('\n' :: r) = [] :: splitNl r
    simp [splitOnC]
    rfl
  | cons c t ih =>
    have hc : ¬ c = '\n' := fun heq => h (by rw [heq]; exact List.mem_cons_self _ _)
    have ht : '\n' ∉ t := fun hm => h (List.mem_cons_of_mem _ hm)
    show splitOnC '\n' (c :: (t ++ '\n' :: r)) = (c :: t) :: splitNl r
    simp only [splitOnC, if_neg hc]
    rw [show splitOnC '\n' (t ++ '\n' :: r) = splitNl (t ++ '\n' :: r) from rfl,
        ih ht]

theorem splitNl_joinNl (ls : List (List Char)) (hne : ls ≠ [])
    (h : ∀ l ∈ ls, '\n' ∉ l) : splitNl (joinNl ls) = ls := by
  induction ls with
  | nil => exact absurd rfl hne
  | cons f t ih =>
    cases t with
    | nil => exact splitNl_single f (h f (List.mem_cons_self _ _))
    | cons g t2 =>
      rw [joinNl_cons_cons,
          splitNl_append_cons f _ (h f (List.mem_cons_self _ _)),
          ih (by simp) (fun l hl => h l (List.mem_cons_of_mem _ hl))]

theorem getLast?_ne_none {α : Type} {l : List α} (h : l ≠ []) :
    l.getLast? ≠ none := by
  rw [← List.head?_reverse]
  cases hr : l.reverse with
  | nil => exact absurd (by simpa using congrArg List.reverse hr) h
  | cons a t => simp

theorem mem_of_getLast?P {α : Type} {l : List α} {c : α}
    (h : l.getLast? = some c) : c ∈ l := by
  have : c ∈ l.reverse := mem_of_head? (by rwa [List.head?_reverse])
  simpa using this

theorem getLast?_joinNl :
    ∀ (ls : List (List Char)) (l : List Char), ls.getLast? = some l → l ≠ [] →
      (joinNl ls).getLast? = l.getLast?
  | [], l, h, _ => by cases h
  | [x], l, h, _ => by
    have hx : x = l := by simpa using h
    subst hx
    rfl
  | x :: y :: t, l, h, hne => by
    have h2 : (y :: t).getLast? = some l := by
      rwa [List.getLast?_cons_cons] at h
    have ih := getLast?_joinNl (y :: t) l h2 hne
    have hJne : joinNl (y :: t) ≠ [] := by
      intro hz
      rw [hz] at ih
      exact getLast?_ne_none hne ih.symm
    rw [joinNl_cons_cons, getLast?_append_right _ _ (by simp),
        show ('\n' :: joinNl (y :: t)) = ['\n'] ++ joinNl (y :: t) from rfl,
        getLast?_append_right _ _ hJne]
    exact ih

theorem head?_joinNl (ls : List (List Char)) (f : List Char)
    (h : ls.head? = some f) (hne : f ≠ []) :
    (joinNl ls).head? = f.head? := by
  cases ls with
  | nil => cases h
  | cons x t =>
    injection h with h
    subst h
    cases t with
    | nil => rfl
    | cons y t2 =>
      rw [joinNl_cons_cons]
      exact head?_append_left _ _ hne

theorem joinNl_ne_nil (ls : List (List Char)) (f : List Char)
    (h : ls.head? = some f) (hne : f ≠ []) : joinNl ls ≠ [] := by
  intro hz
  have h2 := head?_joinNl ls f h hne
  rw [hz] at h2
  cases f with
  | nil => exact hne rfl
  | cons a t => cases h2

theorem mem_joinNl {c : Char} :
    ∀ {ls : List (List Char)}, c ∈ joinNl ls → c = '\n' ∨ ∃ l ∈ ls, c ∈ l
  | [], h => by simp [joinNl, joinWith] at h
  | [x], h => Or.inr ⟨x, List.mem_cons_self _ _, h⟩
  | x :: y :: t, h => by
    rw [joinNl_cons_cons] at h
    rcases List.mem_append.mp h with hx | hrest
    · exact Or.inr ⟨x, List.mem_cons_self _ _, hx⟩
    · rcases List.mem_cons.mp hrest with rfl | hm
      · exact Or.inl rfl
      · rcases mem_joinNl hm with hnl | ⟨l, hl, hcl⟩
        · exact Or.inl hnl
        · exact Or.inr ⟨l, List.mem_cons_of_mem _ hl, hcl⟩

theorem pySplitlines_joinNl (ls : List (List Char)) (hne : ls ≠ [])
    (hnl : ∀ l ∈ ls, '\n' ∉ l) (hnonempty : ∀ l ∈ ls, l ≠ []) :
    pySplitlines (joinNl ls) = ls := by
  obtain ⟨f, t, rfl⟩ : ∃ f t, ls = f :: t := by
    cases ls with
    | nil => exact absurd rfl hne
    | cons f t => exact ⟨f, t, rfl⟩
  have hf : f ≠ [] := hnonempty f (List.mem_cons_self _ _)
  have hjne : joinNl (f :: t) ≠ [] := joinNl_ne_nil _ f rfl hf
  obtain ⟨l, hl⟩ : ∃ l, (f :: t).getLast? = some l := by
    cases hgl : (f :: t).getLast? with
    | none => exact absurd hgl (getLast?_ne_none (by simp))
    | some l => exact ⟨l, rfl⟩
  have hlmem : l ∈ f :: t := mem_of_getLast?P hl
  have hlast : (joinNl (f :: t)).getLast? ≠ some '\n' := by
    intro hc
    rw [getLast?_joinNl _ l hl (hnonempty l hlmem)] at hc
    exact hnl l hlmem (mem_of_getLast?P hc)
  unfold pySplitlines
  rw [if_neg hjne, if_neg hlast]
  exact splitNl_joinNl _ (by simp) hnl

theorem head?_of_dropLast {α : Type} {l : List α} {x : α}
    (h : l.dropLast.head? = some x) : l.head? = some x := by
  cases l with
  | nil => cases h
  | cons a t =>
    cases t with
    | nil => cases h
    | cons b t2 => exact h

theorem mem_pySplitlines {l cs : List Char} (h : l ∈ pySplitlines cs) :
    l ∈ splitNl cs := by
  unfold pySplitlines at h
  by_cases h1 : cs = []
  · rw [if_pos h1] at h
    simp at h
  · rw [if_neg h1] at h
    by_cases h2 : cs.getLast? = some '\n'
    · rw [if_pos h2] at h
      exact (List.dropLast_sublist _).subset h
    · rwa [if_neg h2] at h

theorem splitOnC_len_two (sep : Char) (cs : List Char) (h : sep ∈ cs) :
    2 ≤ (splitOnC sep cs).length := by
  induction cs with
  | nil => simp at h
  | cons c t ih =>
    by_cases hc : c = sep
    · simp only [splitOnC, if_pos hc, List.length_cons]
      have h1 : 0 < (splitOnC sep t).length :=
        List.length_pos.mpr (splitOnC_ne_nil sep t)
      omega
    · have hmem : sep ∈ t := by
        rcases List.mem_cons.mp h with heq | hm
        · exact absurd heq.symm hc
        · exact hm
      simp only [splitOnC, if_neg hc]
      cases hs : splitOnC sep t with
      | nil => exact absurd hs (splitOnC_ne_nil sep t)
      | cons h2 t2 =>
        have hlen := ih hmem
        rw [hs] at hlen
        simp only [List.length_cons] at hlen ⊢
        omega

theorem pySplitlines_ne_nil {cs : List Char} (h : cs ≠ []) :
    pySplitlines cs ≠ [] := by
  unfold pySplitlines
  rw [if_neg h]
  by_cases h2 : cs.getLast? = some '\n'
  · rw [if_pos h2]
    have hmem : '\n' ∈ cs := mem_of_getLast?P h2
    have hlen := splitOnC_len_two '\n' cs hmem
    intro hz
    have hz2 := congrArg List.length hz
    rw [List.length_dropLast] at hz2
    simp only [List.length_nil] at hz2
    have : 2 ≤ (splitNl cs).length := hlen
    omega
  · rw [if_neg h2]
    exact splitOnC_ne_nil _ cs

theorem dropWhile_eq_self_of_head (p : Char → Bool) {cs : List Char} {c : Char}
    (h : cs.head? = some c) (hp : p c = false) : cs.dropWhile p = cs := by
  cases cs with
  | nil => rfl
  | cons a t =>
    injection h with h
    subst h
    rw [List.dropWhile_cons, if_neg (by simp [hp])]

/-! ## Heading / dedupe / table reductions -/

theorem isHeadingL_false_of_no_hash {ln : List Char} (h : '#' ∉ ln) :
    isHeadingL ln = false := by
  cases ln with
  | nil => rfl
  | cons c t =>
    have hc : ¬ c = '#' :=
      fun heq => h (by rw [heq]; exact List.mem_cons_self _ _)
    simp [isHeadingL, List.takeWhile_cons, hc]

theorem headingStripL_no_hash {ln : List Char} (h : '#' ∉ ln) :
    headingStripL ln = ln := by
  unfold headingStripL
  rw [isHeadingL_false_of_no_hash h]
  simp

theorem dedupeLoop_no_heading (tn : List Char) (ls : List (List Char))
    (h : ∀ l ∈ ls, isHeadingL l = false) :
    dedupeLoop tn none ls = ls.filter (keepLine tn) := by
  induction ls with
  | nil => rfl
  | cons ln t ih =>
    have hln := h ln (List.mem_cons_self _ _)
    have ht : ∀ l ∈ t, isHeadingL l = false :=
      fun l hl => h l (List.mem_cons_of_mem _ hl)
    have heq : dedupeLoop tn none (ln :: t) =
        if normKey ln ≠ [] ∧
            ((none : Option (List Char)) = some (normKey ln) ∨ normKey ln = tn)
        then dedupeLoop tn none t else ln :: dedupeLoop tn none t := by
      simp only [dedupeLoop, hln]
      rfl
    rw [heq]
    by_cases hk : normKey ln ≠ [] ∧ normKey ln = tn
    · rw [if_pos ⟨hk.1, Or.inr hk.2⟩, ih ht]
      have hkeep : keepLine tn ln = false := by
        unfold keepLine
        rw [if_pos hk]
      simp [List.filter_cons, hkeep]
    · rw [if_neg (by
        rintro ⟨h1, h2 | h3⟩
        · cases h2
        · exact hk ⟨h1, h3⟩), ih ht]
      have hkeep : keepLine tn ln = true := by
        unfold keepLine
        rw [if_neg hk]
      simp [List.filter_cons, hkeep]

theorem fixInlineTable_no_pipe {cs : List Char} (h : '|' ∉ cs) :
    fixInlineTable cs = cs := by
  unfold fixInlineTable
  rw [if_pos (Or.inl (by simpa using h))]

/-! ## Good-line machinery -/

theorem goodLineB_spec {l : List Char} (h : goodLineB l = true) :
    l ≠ [] ∧ lstripL l = l ∧ rstripL l = l ∧ '#' ∉ l ∧ '|' ∉ l ∧ '\n' ∉ l := by
  simp only [goodLineB, Bool.and_eq_true, decide_eq_true_eq] at h
  exact ⟨h.1.1.1.1.1, h.1.1.1.1.2, h.1.1.1.2, h.1.1.2, h.1.2, h.2⟩

theorem normKey_ne_nil_of_good {l : List Char} (h1 : l ≠ [])
    (h2 : lstripL l = l) (h3 : rstripL l = l) : normKey l ≠ [] := by
  unfold normKey
  rw [trimL_fixed_of l h2 h3]
  intro hz
  have hlen := congrArg List.length hz
  simp only [toLowerL, List.length_map, List.length_nil] at hlen
  exact h1 (List.length_eq_zero.mp hlen)

theorem lstripL_joinNl_good (ks : List (List Char))
    (h : ∀ l ∈ ks, goodLineB l = true) :
    lstripL (joinNl ks) = joinNl ks := by
  cases ks with
  | nil => rfl
  | cons f t =>
    have hf := goodLineB_spec (h f (List.mem_cons_self _ _))
    cases t with
    | nil => exact hf.2.1
    | cons g t2 =>
      rw [joinNl_cons_cons]
      exact dropWhile_append_fixed _ _ _ hf.2.1 hf.1

theorem rstripL_joinNl_good (ks : List (List Char))
    (h : ∀ l ∈ ks, goodLineB l = true) :
    rstripL (joinNl ks) = joinNl ks := by
  cases ks with
  | nil => rfl
  | cons f t =>
    refine rstripL_fixed_of_last _ ?_
    intro c hc
    obtain ⟨l, hl⟩ : ∃ l, (f :: t).getLast? = some l := by
      cases hgl : (f :: t).getLast? with
      | none => exact absurd hgl (getLast?_ne_none (by simp))
      | some l => exact ⟨l, rfl⟩
    have hlg := goodLineB_spec (h l (mem_of_getLast?P hl))
    rw [getLast?_joinNl (f :: t) l hl hlg.1] at hc
    exact rstripL_last_false l hlg.2.2.1 c hc

theorem trimL_joinNl_good (ks : List (List Char))
    (h : ∀ l ∈ ks, goodLineB l = true) :
    trimL (joinNl ks) = joinNl ks :=
  trimL_fixed_of _ (lstripL_joinNl_good ks h) (rstripL_joinNl_good ks h)

theorem pipe_not_mem_joinNl (ks : List (List Char))
    (h : ∀ l ∈ ks, '|' ∉ l) : '|' ∉ joinNl ks := by
  intro hm
  rcases mem_joinNl hm with hc | ⟨l, hl, hcl⟩
  · exact absurd hc (by decide)
  · exact h l hl hcl

/-- The dedupe-then-table-fix-then-trim tail of `_normalize_section`, on a
line list with no headings, no pipes and no surrounding whitespace,
reduces to filtering out the lines that equal the normalised title. -/
theorem dedupeChainResult (tn : List Char) (ls : List (List Char))
    (hgood : ∀ l ∈ ls, goodLineB l = true) :
    trimL (fixInlineTable (trimL (joinNl (dedupeLoop tn none ls)))) =
      joinNl (ls.filter (keepLine tn)) := by
  have hnh : ∀ l ∈ ls, isHeadingL l = false := fun l hl =>
    isHeadingL_false_of_no_hash (goodLineB_spec (hgood l hl)).2.2.2.1
  rw [dedupeLoop_no_heading tn ls hnh]
  have hgood2 : ∀ l ∈ ls.filter (keepLine tn), goodLineB l = true :=
    fun l hl => hgood l (List.mem_of_mem_filter hl)
  rw [trimL_joinNl_good _ hgood2,
      fixInlineTable_no_pipe (pipe_not_mem_joinNl _
        (fun l hl => (goodLineB_spec (hgood2 l hl)).2.2.2.2.1)),
      trimL_joinNl_good _ hgood2]

/-- On a body all of whose lines are good, `_normalize_section` returns a
join of good, kept lines. -/
theorem normalizeSectionL_good (title body : List Char)
    (h : ∀ l ∈ pySplitlines body, goodLineB l = true) :
    ∃ ks, (∀ l ∈ ks, goodLineB l = true) ∧
      (∀ l ∈ ks, keepLine (normKey title) l = true) ∧
      normalizeSectionL title body = joinNl ks := by
  by_cases hb : body = []
  · subst hb
    exact ⟨[], by simp, by simp, rfl⟩
  · obtain ⟨f, t, hL⟩ : ∃ f t, pySplitlines body = f :: t := by
      cases hp : pySplitlines body with
      | nil => exact absurd hp (pySplitlines_ne_nil hb)
      | cons f t => exact ⟨f, t, rfl⟩
    have hmemL : ∀ l ∈ f :: t, goodLineB l = true := by
      intro l hl
      exact h l (by rw [hL]; exact hl)
    have hf := goodLineB_spec (hmemL f (List.mem_cons_self _ _))
    have hsp : (splitNl body).head? = some f := by
      unfold pySplitlines at hL
      rw [if_neg hb] at hL
      by_cases h2 : body.getLast? = some '\n'
      · rw [if_pos h2] at hL
        exact head?_of_dropLast (by rw [hL]; rfl)
      · rw [if_neg h2] at hL
        rw [hL]
        rfl
    have hheadb : body.head? = f.head? := by
      conv_lhs => rw [← joinNl_splitNl body]
      exact head?_joinNl _ f hsp hf.1
    have hlsb : lstripL body = body := by
      obtain ⟨c, hc⟩ : ∃ c, f.head? = some c := by
        cases f with
        | nil => exact absurd rfl hf.1
        | cons a t2 => exact ⟨a, rfl⟩
      exact dropWhile_eq_self_of_head _ (by rw [hheadb]; exact hc)
        (dropWhile_head_false _ f hf.2.1 c hc)
    have hnlL : ∀ l ∈ f :: t, '\n' ∉ l :=
      fun l hl => (goodLineB_spec (hmemL l hl)).2.2.2.2.2
    have hneL : ∀ l ∈ f :: t, l ≠ [] :=
      fun l hl => (goodLineB_spec (hmemL l hl)).1
    by_cases hdrop : normKey (headingStripL f) = normKey title
    · refine ⟨t.filter (keepLine (normKey title)), ?_, ?_, ?_⟩
      · intro l hl
        exact hmemL l (List.mem_cons_of_mem _ (List.mem_of_mem_filter hl))
      · intro l hl
        exact List.of_mem_filter hl
      · have hsplit1 : pySplitlines (joinNl t) = t := by
          cases t with
          | nil => rfl
          | cons g t2 =>
            exact pySplitlines_joinNl _ (by simp)
              (fun l hl => hnlL l (List.mem_cons_of_mem _ hl))
              (fun l hl => hneL l (List.mem_cons_of_mem _ hl))
        simp only [normalizeSectionL, hlsb, hL]
        rw [if_pos hdrop]
        simp only [dedupeHeadingsL, hsplit1]
        exact dedupeChainResult (normKey title) t
          (fun l hl => hmemL l (List.mem_cons_of_mem _ hl))
    · refine ⟨(f :: t).filter (keepLine (normKey title)), ?_, ?_, ?_⟩
      · intro l hl
        exact hmemL l (List.mem_of_mem_filter hl)
      · intro l hl
        exact List.of_mem_filter hl
      · simp only [normalizeSectionL, hlsb, hL]
        rw [if_neg hdrop]
        simp only [dedupeHeadingsL, hlsb, hL]
        exact dedupeChainResult (normKey title) (f :: t) hmemL

/-- A join of good, kept lines is a fixed point of `_normalize_section`. -/
theorem normalizeSectionL_fixpoint (title : List Char) (ks : List (List Char))
    (hgood : ∀ l ∈ ks, goodLineB l = true)
    (hkeep : ∀ l ∈ ks, keepLine (normKey title) l = true) :
    normalizeSectionL title (joinNl ks) = joinNl ks := by
  cases ks with
  | nil => rfl
  | cons f t =>
    have hf := goodLineB_spec (hgood f (List.mem_cons_self _ _))
    have hlsj : lstripL (joinNl (f :: t)) = joinNl (f :: t) :=
      lstripL_joinNl_good _ hgood
    have hsplit : pySplitlines (joinNl (f :: t)) = f :: t :=
      pySplitlines_joinNl _ (by simp)
        (fun l hl => (goodLineB_spec (hgood l hl)).2.2.2.2.2)
        (fun l hl => (goodLineB_spec (hgood l hl)).1)
    have hnk : ¬ normKey (headingStripL f) = normKey title := by
      rw [headingStripL_no_hash hf.2.2.2.1]
      have hkf := hkeep f (List.mem_cons_self _ _)
      unfold keepLine at hkf
      by_cases hcond : normKey f ≠ [] ∧ normKey f = normKey title
      · rw [if_pos hcond] at hkf
        cases hkf
      · intro heq
        exact hcond ⟨normKey_ne_nil_of_good hf.1 hf.2.1 hf.2.2.1, heq⟩
    simp only [normalizeSectionL, hlsj, hsplit]
    rw [if_neg hnk]
    simp only [dedupeHeadingsL, hlsj, hsplit]
    rw [dedupeChainResult (normKey title) (f :: t) hgood,
        List.filter_eq_self.mpr hkeep]

/-! ## Claim C3 -/

/-- Claim C3 as stated is false: for title T and body consisting of a
duplicated title heading, one application of normalizeSection yields a
single title heading and a second application removes it. -/
theorem claimC3_counterexample :
    normalizeSection "T" (normalizeSection "T" "# T\n# T") ≠
      normalizeSection "T" "# T\n# T" := by
  decide

/-- Claim C3 (amended): normalizeSection is not idempotent in general, but
it is idempotent for every title and every body each of whose lines is
non-empty, free of leading and trailing whitespace, and contains no hash
mark and no pipe character. -/
theorem claimC3_amended (title body : String)
    (h : ∀ l ∈ pySplitlines body.data, goodLineB l = true) :
    normalizeSection title (normalizeSection title body) =
      normalizeSection title body := by
  obtain ⟨ks, hgood, hkeep, heq⟩ := normalizeSectionL_good title.data body.data h
  unfold normalizeSection
  rw [heq]
  show String.mk (normalizeSectionL title.data (joinNl ks)) = String.mk (joinNl ks)
  rw [normalizeSectionL_fixpoint title.data ks hgood hkeep]

/-- Witness for claimC3_amended at a concrete two-line body. -/
theorem claimC3_witness :
    (∀ l ∈ pySplitlines "Intro line\nSecond line".data, goodLineB l = true) ∧
      normalizeSection "T" (normalizeSection "T" "Intro line\nSecond line") =
        normalizeSection "T" "Intro line\nSecond line" :=
  ⟨by decide, claimC3_amended "T" "Intro line\nSecond line" (by decide)⟩

/-! ## Table-fix lemmas -/

theorem trimL_lstripL (cs : List Char) : trimL (lstripL cs) = trimL cs := by
  unfold trimL
  rw [lstripL_idem]

theorem mem_of_mem_trimL {c : Char} {cs : List Char} (h : c ∈ trimL cs) :
    c ∈ cs := by
  by_contra hc
  exact not_mem_trimL hc h

theorem mem_of_mem_splitOnC (sep : Char) (cs : List Char) :
    ∀ l ∈ splitOnC sep cs, ∀ c ∈ l, c ∈ cs := by
  induction cs with
  | nil =>
    intro l hl c hc
    simp only [splitOnC, List.mem_singleton] at hl
    subst hl
    simp at hc
  | cons a t ih =>
    intro l hl c hc
    by_cases ha : a = sep
    · simp only [splitOnC, if_pos ha, List.mem_cons] at hl
      rcases hl with rfl | hm
      · simp at hc
      · exact List.mem_cons_of_mem _ (ih l hm c hc)
    · simp only [splitOnC, if_neg ha] at hl
      cases hs : splitOnC sep t with
      | nil => exact absurd hs (splitOnC_ne_nil sep t)
      | cons h2 t2 =>
        rw [hs] at hl
        rcases List.mem_cons.mp hl with rfl | hm
        · rcases List.mem_cons.mp hc with rfl | hin
          · exact List.mem_cons_self _ _
          · exact List.mem_cons_of_mem _
              (ih h2 (by rw [hs]; exact List.mem_cons_self _ _) c hin)
        · exact List.mem_cons_of_mem _
            (ih l (by rw [hs]; exact List.mem_cons_of_mem _ hm) c hc)

theorem tokensOf_sub {s tok : List Char} (h : tok ∈ tokensOf s) :
    ∀ c ∈ tok, c ∈ s := by
  unfold tokensOf at h
  have h1 := List.mem_of_mem_filter h
  rcases List.mem_map.mp h1 with ⟨l, hl, rfl⟩
  intro c hc
  exact mem_of_mem_splitOnC '|' s l hl c (mem_of_mem_trimL hc)

theorem tokensOf_no_pipe {s tok : List Char} (h : tok ∈ tokensOf s) :
    '|' ∉ tok := by
  unfold tokensOf at h
  have h1 := List.mem_of_mem_filter h
  rcases List.mem_map.mp h1 with ⟨l, hl, rfl⟩
  intro hc
  exact splitOnC_no_sep '|' s l hl (mem_of_mem_trimL hc)

theorem pairUp_mem : ∀ {l : List (List Char)} {p : List Char × List Char},
    p ∈ pairUp l → p.1 ∈ l ∧ p.2 ∈ l
  | [], p, h => by simp [pairUp] at h
  | [_], p, h => by simp [pairUp] at h
  | a :: b :: rest, p, h => by
    rcases List.mem_cons.mp h with rfl | hm
    · exact ⟨List.mem_cons_self _ _, List.mem_cons_of_mem _ (List.mem_cons_self _ _)⟩
    · have ih := pairUp_mem hm
      exact ⟨List.mem_cons_of_mem _ (List.mem_cons_of_mem _ ih.1),
             List.mem_cons_of_mem _ (List.mem_cons_of_mem _ ih.2)⟩

theorem pairUp_length : ∀ l : List (List Char), (pairUp l).length = l.length / 2
  | [] => rfl
  | [x] => by
    rw [show pairUp [x] = [] from rfl]
    simp only [List.length_nil, List.length_cons]
  | _ :: _ :: rest => by
    show (pairUp rest).length + 1 = (rest.length + 1 + 1) / 2
    rw [pairUp_length rest]
    omega

theorem sepSkip_subset (rest : List (List Char)) :
    ∀ l ∈ sepSkip rest, l ∈ rest := by
  cases rest with
  | nil => intro l hl; exact hl
  | cons r0 t =>
    cases t with
    | nil => intro l hl; exact hl
    | cons r1 t2 =>
      have heq : sepSkip (r0 :: r1 :: t2) =
          if dashOnly r0 then List.drop 2 (r0 :: r1 :: t2) else r0 :: r1 :: t2 :=
        rfl
      rw [heq]
      by_cases hd : dashOnly r0
      · rw [if_pos hd]
        intro l hl
        exact List.mem_cons_of_mem _ (List.mem_cons_of_mem _ hl)
      · rw [if_neg hd]
        intro l hl
        exact hl

theorem mkRow_ne_nil (a b : List Char) : mkRow a b ≠ [] := by
  unfold mkRow
  simp

theorem mkRow_head (a b : List Char) : (mkRow a b).head? = some '|' := rfl

theorem mkRow_last (a b : List Char) : (mkRow a b).getLast? = some '|' := by
  unfold mkRow
  rw [getLast?_append_right _ _ (by simp)]
  rfl

theorem mkRow_no_nl {a b : List Char} (ha : '\n' ∉ a) (hb : '\n' ∉ b) :
    '\n' ∉ mkRow a b := by
  unfold mkRow
  intro h
  rcases List.mem_append.mp h with h1 | h2
  · rcases List.mem_append.mp h1 with h3 | h4
    · rcases List.mem_append.mp h3 with h5 | h6
      · rcases List.mem_append.mp h5 with h7 | h8
        · exact absurd h7 (by decide)
        · exact ha h8
      · exact absurd h6 (by decide)
    · exact hb h4
  · exact absurd h2 (by decide)

theorem mkRow_count {a b : List Char} (ha : '|' ∉ a) (hb : '|' ∉ b) :
    (mkRow a b).count '|' = 3 := by
  unfold mkRow
  rw [List.count_append, List.count_append, List.count_append, List.count_append,
      List.count_eq_zero_of_not_mem ha, List.count_eq_zero_of_not_mem hb]
  decide

theorem pySplitlines_single {cs : List Char} (hne : cs ≠ []) (hnl : '\n' ∉ cs) :
    pySplitlines cs = [cs] := by
  unfold pySplitlines
  rw [if_neg hne, if_neg (fun h => hnl (mem_of_getLast?P h))]
  exact splitNl_single cs hnl

theorem dedupeLoop_single (tn b0 : List Char)
    (h : normKey (headingStripL b0) ≠ tn) :
    dedupeLoop tn none [b0] = [b0] := by
  by_cases hh : isHeadingL b0 = true
  · simp [dedupeLoop, hh]
  · rw [Bool.not_eq_true] at hh
    have hb : headingStripL b0 = b0 := by
      unfold headingStripL
      rw [hh]
      simp
    rw [hb] at h
    have heq : dedupeLoop tn none [b0] =
        if normKey b0 ≠ [] ∧
            ((none : Option (List Char)) = some (normKey b0) ∨ normKey b0 = tn)
        then dedupeLoop tn none [] else b0 :: dedupeLoop tn none [] := by
      simp only [dedupeLoop, hh]
      rfl
    rw [heq, if_neg (by
      rintro ⟨h1, h2 | h3⟩
      · cases h2
      · exact h h3)]
    rfl

theorem fixInlineTable_eval (cs : List Char) (t0 t1 : List Char)
    (rest : List (List Char))
    (htrim : trimL cs = cs) (hpipe : '|' ∈ cs) (hnl : '\n' ∉ cs)
    (h8 : 8 ≤ cs.count '|')
    (hm : hasSub "Milestone".data cs = true)
    (hd : hasSub "Date".data cs = true)
    (htk : tokensOf cs = t0 :: t1 :: rest)
    (hms : leadsWith "milestone".data (toLowerL t0) = true) :
    fixInlineTable cs =
      joinNl (mkRow t0 t1 :: mkRow "---".data "---".data ::
        (pairUp (sepSkip rest)).map (fun p => mkRow p.1 p.2)) := by
  have hc1 : cs.contains '|' = true := by simpa using hpipe
  have hc2 : cs.contains '\n' = false := by simpa using hnl
  have hcond : ¬ (¬ cs.contains '|' ∨ (cs.contains '\n' ∧ 2 < cs.count '\n')) := by
    rintro (hA | hB)
    · exact hA (by rw [hc1])
    · rw [hc2] at hB
      exact absurd hB.1 (by decide)
  have heq : fixInlineTable cs =
      (if 8 ≤ (trimL cs).count '|' ∧ hasSub "Milestone".data (trimL cs) ∧
          hasSub "Date".data (trimL cs) then
        match tokensOf (trimL cs) with
        | a :: b :: r =>
          if leadsWith "milestone".data (toLowerL a) then
            joinNl (mkRow a b :: mkRow "---".data "---".data ::
              (pairUp (sepSkip r)).map (fun p => mkRow p.1 p.2))
          else cs
        | _ => cs
      else cs) := by
    unfold fixInlineTable
    rw [if_neg hcond]
  rw [heq, htrim, if_pos ⟨h8, hm, hd⟩, htk]
  show (if leadsWith "milestone".data (toLowerL t0) = true then
      joinNl (mkRow t0 t1 :: mkRow "---".data "---".data ::
        (pairUp (sepSkip rest)).map (fun p => mkRow p.1 p.2))
    else cs) = _
  rw [if_pos hms]

theorem trimL_rows (rows : List (List Char)) (hne : rows ≠ [])
    (hshape : ∀ r ∈ rows, ∃ a b, r = mkRow a b) :
    trimL (joinNl rows) = joinNl rows := by
  obtain ⟨f, t, rfl⟩ : ∃ f t, rows = f :: t := by
    cases rows with
    | nil => exact absurd rfl hne
    | cons f t => exact ⟨f, t, rfl⟩
  have hfne : f ≠ [] := by
    obtain ⟨a, b, rfl⟩ := hshape f (List.mem_cons_self _ _)
    exact mkRow_ne_nil a b
  refine trimL_fixed_of _ ?_ ?_
  · have hh : (joinNl (f :: t)).head? = f.head? := head?_joinNl _ f rfl hfne
    obtain ⟨a, b, hab⟩ := hshape f (List.mem_cons_self _ _)
    have hf2 : f.head? = some '|' := by rw [hab]; exact mkRow_head a b
    exact dropWhile_eq_self_of_head _ (hh.trans hf2) (by decide)
  · refine rstripL_fixed_of_last _ ?_
    intro c hc
    obtain ⟨l, hl⟩ : ∃ l, (f :: t).getLast? = some l := by
      cases hgl : (f :: t).getLast? with
      | none => exact absurd hgl (getLast?_ne_none (by simp))
      | some l => exact ⟨l, rfl⟩
    obtain ⟨a, b, hab⟩ := hshape l (mem_of_getLast?P hl)
    have hlast := getLast?_joinNl (f :: t) l hl (by rw [hab]; exact mkRow_ne_nil a b)
    rw [hlast, hab, mkRow_last] at hc
    injection hc with hc
    subst hc
    decide

/-- `_normalize_section` on a single-line collapsed table whose first
token starts with Milestone: the full evaluation down to the re-emitted
multi-line table. -/
theorem normalizeSectionL_table (title body : List Char) (t0 t1 : List Char)
    (rest : List (List Char))
    (h0 : '\n' ∉ body)
    (h8 : 8 ≤ (trimL body).count '|')
    (hm : hasSub "Milestone".data (trimL body) = true)
    (hd : hasSub "Date".data (trimL body) = true)
    (htk : tokensOf (trimL body) = t0 :: t1 :: rest)
    (hms : leadsWith "milestone".data (toLowerL t0) = true)
    (hstep : normKey (headingStripL (lstripL body)) ≠ normKey title) :
    normalizeSectionL title body =
      joinNl (mkRow t0 t1 :: mkRow "---".data "---".data ::
        (pairUp (sepSkip rest)).map (fun p => mkRow p.1 p.2)) := by
  have hb0nl : '\n' ∉ lstripL body := fun h => h0 (mem_of_mem_dropWhile _ h)
  have hs0 : trimL (lstripL body) = trimL body := trimL_lstripL body
  have hb0ne : lstripL body ≠ [] := by
    intro hz
    have hz2 : trimL body = [] := by rw [← hs0, hz]; rfl
    rw [hz2] at h8
    simp at h8
  have hsplit : pySplitlines (lstripL body) = [lstripL body] :=
    pySplitlines_single hb0ne hb0nl
  have hpipe : '|' ∈ trimL body := by
    by_contra hnp
    rw [List.count_eq_zero_of_not_mem hnp] at h8
    omega
  simp only [normalizeSectionL, hsplit]
  rw [if_neg hstep]
  simp only [dedupeHeadingsL, hsplit]
  rw [dedupeLoop_single _ _ hstep,
      show joinNl [lstripL body] = lstripL body from rfl, hs0,
      fixInlineTable_eval (trimL body) t0 t1 rest (trimL_idem body) hpipe
        (not_mem_trimL h0) h8 hm hd htk hms]
  refine trimL_rows _ (by simp) ?_
  intro r hr
  rcases List.mem_cons.mp hr with rfl | hr2
  · exact ⟨t0, t1, rfl⟩
  rcases List.mem_cons.mp hr2 with rfl | hr3
  · exact ⟨"---".data, "---".data, rfl⟩
  rcases List.mem_map.mp hr3 with ⟨p, _, rfl⟩
  exact ⟨p.1, p.2, rfl⟩

/-! ## Claim C8 -/

/-- Claim C8 as stated is false: a single-line body with nine pipes
containing both Milestone and Date, but whose first pipe token is Date,
is left unchanged by normalizeSection — a single line, not a three-line
table — because `_fix_inline_table` additionally requires the first token
to start with "milestone". -/
theorem claimC8_counterexample :
    '\n' ∉ dBody.data ∧
      8 ≤ dBody.data.count '|' ∧
      hasSub "Milestone".data dBody.data = true ∧
      hasSub "Date".data dBody.data = true ∧
      normalizeSection "Timeline & Milestones" dBody = dBody ∧
      (pySplitlines (normalizeSection "Timeline & Milestones" dBody).data).length
        = 1 := by
  decide

/-- Claim C8 (amended): for a single-line body with at least 8 pipes
containing both "Milestone" and "Date", whose first pipe token starts with
"milestone" (case-insensitively), which leaves at least two tokens after
the header and the optional dash-separator pair, and whose text does not
coincide with the section title, normalizeSection emits a newline-delimited
markdown table: a two-column header row, a dash separator row, and one data
row per remaining token pair — at least 3 lines in all, every row with
exactly two columns (three pipes). -/
theorem claimC8_amended (title body : String) (t0 t1 : List Char)
    (rest : List (List Char))
    (h0 : '\n' ∉ body.data)
    (h8 : 8 ≤ (trimL body.data).count '|')
    (hm : hasSub "Milestone".data (trimL body.data) = true)
    (hd : hasSub "Date".data (trimL body.data) = true)
    (htk : tokensOf (trimL body.data) = t0 :: t1 :: rest)
    (hms : leadsWith "milestone".data (toLowerL t0) = true)
    (hpair : 2 ≤ (sepSkip rest).length)
    (hstep : normKey (headingStripL (lstripL body.data)) ≠ normKey title.data) :
    (normalizeSection title body).data =
      joinNl (mkRow t0 t1 :: mkRow "---".data "---".data ::
        (pairUp (sepSkip rest)).map (fun p => mkRow p.1 p.2)) ∧
    pySplitlines (normalizeSection title body).data =
      mkRow t0 t1 :: mkRow "---".data "---".data ::
        (pairUp (sepSkip rest)).map (fun p => mkRow p.1 p.2) ∧
    3 ≤ (pySplitlines (normalizeSection title body).data).length ∧
    ∀ ln ∈ pySplitlines (normalizeSection title body).data,
      ln.count '|' = 3 := by
  have htab : normalizeSectionL title.data body.data =
      joinNl (mkRow t0 t1 :: mkRow "---".data "---".data ::
        (pairUp (sepSkip rest)).map (fun p => mkRow p.1 p.2)) :=
    normalizeSectionL_table title.data body.data t0 t1 rest h0 h8 hm hd htk
      hms hstep
  have htok_mem : ∀ tok ∈ tokensOf (trimL body.data), '\n' ∉ tok ∧ '|' ∉ tok := by
    intro tok htokm
    refine ⟨?_, tokensOf_no_pipe htokm⟩
    intro hc
    exact h0 (mem_of_mem_trimL (tokensOf_sub htokm '\n' hc))
  have ht0 := htok_mem t0 (by rw [htk]; exact List.mem_cons_self _ _)
  have ht1 := htok_mem t1
    (by rw [htk]; exact List.mem_cons_of_mem _ (List.mem_cons_self _ _))
  have hrest : ∀ l ∈ rest, '\n' ∉ l ∧ '|' ∉ l := fun l hl => htok_mem l
    (by rw [htk]
        exact List.mem_cons_of_mem _ (List.mem_cons_of_mem _ hl))
  have hprops : ∀ r ∈ (mkRow t0 t1 :: mkRow "---".data "---".data ::
      (pairUp (sepSkip rest)).map (fun p => mkRow p.1 p.2)),
      ∃ a b, r = mkRow a b ∧ '\n' ∉ a ∧ '\n' ∉ b ∧ '|' ∉ a ∧ '|' ∉ b := by
    intro r hr
    rcases List.mem_cons.mp hr with rfl | hr2
    · exact ⟨t0, t1, rfl, ht0.1, ht1.1, ht0.2, ht1.2⟩
    rcases List.mem_cons.mp hr2 with rfl | hr3
    · exact ⟨"---".data, "---".data, rfl, by decide, by decide, by decide,
             by decide⟩
    rcases List.mem_map.mp hr3 with ⟨p, hp, rfl⟩
    have hp1 := hrest p.1 (sepSkip_subset rest p.1 (pairUp_mem hp).1)
    have hp2 := hrest p.2 (sepSkip_subset rest p.2 (pairUp_mem hp).2)
    exact ⟨p.1, p.2, rfl, hp1.1, hp2.1, hp1.2, hp2.2⟩
  have hdata : (normalizeSection title body).data =
      joinNl (mkRow t0 t1 :: mkRow "---".data "---".data ::
        (pairUp (sepSkip rest)).map (fun p => mkRow p.1 p.2)) := htab
  have hsplit_rows : pySplitlines (joinNl (mkRow t0 t1 ::
      mkRow "---".data "---".data ::
      (pairUp (sepSkip rest)).map (fun p => mkRow p.1 p.2))) =
      mkRow t0 t1 :: mkRow "---".data "---".data ::
        (pairUp (sepSkip rest)).map (fun p => mkRow p.1 p.2) := by
    refine pySplitlines_joinNl _ (by simp) ?_ ?_
    · intro l hl
      obtain ⟨a, b, rfl, ha, hb, -, -⟩ := hprops l hl
      exact mkRow_no_nl ha hb
    · intro l hl
      obtain ⟨a, b, rfl, -, -, -, -⟩ := hprops l hl
      exact mkRow_ne_nil a b
  refine ⟨hdata, ?_, ?_, ?_⟩
  · rw [hdata]
    exact hsplit_rows
  · rw [hdata, hsplit_rows]
    simp only [List.length_cons, List.length_map, pairUp_length]
    omega
  · intro ln hln
    rw [hdata, hsplit_rows] at hln
    obtain ⟨a, b, rfl, -, -, ha, hb⟩ := hprops ln hln
    exact mkRow_count ha hb

/-- Witness for claimC8_amended: the Milestone-first collapsed table wBody
with title X expands to a four-line table with two columns per row. -/
theorem claimC8_witness :
    ('\n' ∉ wBody.data ∧
      8 ≤ (trimL wBody.data).count '|' ∧
      hasSub "Milestone".data (trimL wBody.data) = true ∧
      hasSub "Date".data (trimL wBody.data) = true ∧
      tokensOf (trimL wBody.data) = "Milestone".data :: "Date".data :: wRest ∧
      leadsWith "milestone".data (toLowerL "Milestone".data) = true ∧
      2 ≤ (sepSkip wRest).length ∧
      normKey (headingStripL (lstripL wBody.data)) ≠ normKey "X".data) ∧
    (3 ≤ (pySplitlines (normalizeSection "X" wBody).data).length ∧
      ∀ ln ∈ pySplitlines (normalizeSection "X" wBody).data,
        ln.count '|' = 3) :=
  ⟨by decide,
   (claimC8_amended "X" wBody "Milestone".data "Date".data wRest (by decide)
      (by decide) (by decide) (by decide) (by decide) (by decide) (by decide)
      (by decide)).2.2⟩
